import Mathlib

/-!
Verification of the lsmdb storage engine core (`src/storage`), as a shallow
embedding.  Keys and values are byte sequences, embedded as `List Nat`;
machine integers are embedded as `Nat`; loops are embedded with explicit
fuel; fallible operations return `Option` or `Except`.
-/

namespace LsmDb

/-- Byte strings: keys (`Vec<u8>` in the source). -/
abbrev Key := List Nat

/-- Byte strings: values (`Vec<u8>` in the source). -/
abbrev Value := List Nat

/-- The distinguished empty value marking a deletion (`TOMBSTONE` in `lib.rs`). -/
def TOMBSTONE : Value := []

/-- Lexicographic comparison of byte strings (`Ord for Vec<u8>` in Rust). -/
def keyCmp : Key → Key → Ordering
  | [], [] => .eq
  | [], _ :: _ => .lt
  | _ :: _, [] => .gt
  | a :: ka, b :: kb =>
    match compare a b with
    | .eq => keyCmp ka kb
    | o => o

theorem keyCmp_eq_iff : ∀ {a b : Key}, keyCmp a b = .eq ↔ a = b := by
  intro a
  induction a with
  | nil => intro b; cases b <;> simp [keyCmp]
  | cons x xs ih =>
    intro b
    cases b with
    | nil => simp [keyCmp]
    | cons y ys =>
      cases h : compare x y with
      | lt =>
        have hne : x ≠ y := Nat.ne_of_lt (Nat.compare_eq_lt.mp h)
        simp [keyCmp, h, hne]
      | eq =>
        have hxy : x = y := Nat.compare_eq_eq.mp h
        subst hxy
        simp [keyCmp, h, ih]
      | gt =>
        have hne : x ≠ y := Nat.ne_of_gt (Nat.compare_eq_gt.mp h)
        simp [keyCmp, h, hne]

theorem keyCmp_refl (a : Key) : keyCmp a a = .eq := keyCmp_eq_iff.mpr rfl

theorem keyCmp_swap : ∀ a b : Key, (keyCmp a b).swap = keyCmp b a := by
  intro a
  induction a with
  | nil => intro b; cases b <;> simp [keyCmp, Ordering.swap]
  | cons x xs ih =>
    intro b
    cases b with
    | nil => simp [keyCmp, Ordering.swap]
    | cons y ys =>
      simp only [keyCmp]
      rcases h : compare x y with hlt | heq | hgt
      · have : compare y x = .gt :=
          Nat.compare_eq_gt.mpr (Nat.compare_eq_lt.mp h)
        simp [this, Ordering.swap]
      · have hxy : x = y := Nat.compare_eq_eq.mp h
        subst hxy
        simp [Nat.compare_eq_eq.mpr rfl, ih]
      · have : compare y x = .lt :=
          Nat.compare_eq_lt.mpr (Nat.compare_eq_gt.mp h)
        simp [this, Ordering.swap]

theorem keyCmp_lt_trans :
    ∀ {a b c : Key}, keyCmp a b = .lt → keyCmp b c = .lt → keyCmp a c = .lt := by
  intro a
  induction a with
  | nil =>
    intro b c hab hbc
    cases b with
    | nil => exact absurd hab (by simp [keyCmp])
    | cons y ys =>
      cases c with
      | nil => exact absurd hbc (by simp [keyCmp])
      | cons z zs => simp [keyCmp]
  | cons x xs ih =>
    intro b c hab hbc
    cases b with
    | nil => exact absurd hab (by simp [keyCmp])
    | cons y ys =>
      cases c with
      | nil => exact absurd hbc (by simp [keyCmp])
      | cons z zs =>
        simp only [keyCmp] at hab hbc ⊢
        cases hxy : compare x y with
        | lt =>
          cases hyz : compare y z with
          | lt =>
            have hxz : x < z :=
              Nat.lt_trans (Nat.compare_eq_lt.mp hxy) (Nat.compare_eq_lt.mp hyz)
            simp [Nat.compare_eq_lt.mpr hxz]
          | eq =>
            have hyz2 : y = z := Nat.compare_eq_eq.mp hyz
            subst hyz2
            simp [hxy]
          | gt => simp [hyz] at hbc
        | eq =>
          have hxy2 : x = y := Nat.compare_eq_eq.mp hxy
          subst hxy2
          simp only [hxy] at hab
          cases hyz : compare x z with
          | lt => simp [hyz]
          | eq =>
            have hxz : x = z := Nat.compare_eq_eq.mp hyz
            subst hxz
            simp only [hyz] at hbc
            simp [hyz, ih hab hbc]
          | gt => simp [hyz] at hbc
        | gt => simp [hxy] at hab

/-- `keyCmp a b = .lt ↔ keyCmp b a = .gt` (derived from `keyCmp_swap`). -/
theorem keyCmp_lt_iff_gt {a b : Key} : keyCmp a b = .lt ↔ keyCmp b a = .gt := by
  constructor
  · intro h
    have := keyCmp_swap a b
    rw [h] at this
    exact this.symm
  · intro h
    have := keyCmp_swap b a
    rw [h] at this
    cases hab : keyCmp a b <;> rw [hab] at this <;> simp [Ordering.swap] at this ⊢

theorem keyCmp_trichotomy (a b : Key) :
    keyCmp a b = .lt ∨ a = b ∨ keyCmp b a = .lt := by
  cases h : keyCmp a b
  · exact Or.inl rfl
  · exact Or.inr (Or.inl (keyCmp_eq_iff.mp h))
  · exact Or.inr (Or.inr (keyCmp_lt_iff_gt.mpr h))

theorem keyCmp_lt_irrefl (a : Key) : keyCmp a a ≠ .lt := by
  simp [keyCmp_refl]

theorem keyCmp_lt_ne {a b : Key} (h : keyCmp a b = .lt) : a ≠ b := by
  intro hab
  subst hab
  exact keyCmp_lt_irrefl a h

/-! ## Binary codec (`utils.rs` / bincode standard configuration)

The bincode "standard" configuration encodes unsigned integers as
variable-length integers (single byte below 251, marker byte 251/252/253
followed by a little-endian 2/4/8-byte integer) and `Vec<u8>` as a
varint-encoded length followed by the raw bytes.  Decoders consume a
suffix of the input list.  -/

/-- Read `n` little-endian bytes. -/
def readLE : Nat → List Nat → Option (Nat × List Nat)
  | 0, bs => some (0, bs)
  | _ + 1, [] => none
  | n + 1, b :: bs => (readLE n bs).map (fun p => (b % 256 + 256 * p.1, p.2))

/-- Write `n` little-endian bytes of `v`. -/
def encodeLE : Nat → Nat → List Nat
  | 0, _ => []
  | n + 1, v => v % 256 :: encodeLE n (v / 256)

/-- bincode varint encoding of an unsigned integer. -/
def encodeVarint (n : Nat) : List Nat :=
  if n < 251 then [n]
  else if n < 2 ^ 16 then 251 :: encodeLE 2 n
  else if n < 2 ^ 32 then 252 :: encodeLE 4 n
  else 253 :: encodeLE 8 n

/-- bincode varint decoding into a `u64` (lengths, `usize` fields). -/
def decodeVarintU64 : List Nat → Option (Nat × List Nat)
  | [] => none
  | b :: bs =>
    if b < 251 then some (b, bs)
    else if b = 251 then readLE 2 bs
    else if b = 252 then readLE 4 bs
    else if b = 253 then readLE 8 bs
    else none

/-- bincode varint decoding into a `u32` (the WAL checksum field). -/
def decodeVarintU32 : List Nat → Option (Nat × List Nat)
  | [] => none
  | b :: bs =>
    if b < 251 then some (b, bs)
    else if b = 251 then readLE 2 bs
    else if b = 252 then readLE 4 bs
    else none

/-- bincode encoding of a `Vec<u8>`: varint length, then the raw bytes. -/
def encodeBytes (b : List Nat) : List Nat := encodeVarint b.length ++ b

/-- bincode decoding of a `Vec<u8>`. -/
def decodeBytes (bs : List Nat) : Option (List Nat × List Nat) :=
  match decodeVarintU64 bs with
  | none => none
  | some (len, rest) =>
    if len ≤ rest.length then some (rest.take len, rest.drop len) else none

/-- Encoding of one `(Key, Value)` record, as written by `MemTable::save`. -/
def encodeKV (k : Key) (v : Value) : List Nat := encodeBytes k ++ encodeBytes v

/-- Decoding of one `(Key, Value)` record together with the number of bytes
consumed (`utils::decode` returns `(T, usize)`). -/
def decodeKV (bs : List Nat) : Option ((Key × Value) × Nat) :=
  match decodeBytes bs with
  | none => none
  | some (k, r1) =>
    match decodeBytes r1 with
    | none => none
    | some (v, r2) => some ((k, v), bs.length - r2.length)

theorem readLE_length {n : Nat} {bs rest : List Nat} {v : Nat}
    (h : readLE n bs = some (v, rest)) : rest.length + n = bs.length := by
  induction n generalizing bs rest v with
  | zero => simp [readLE] at h; simp [h.2]
  | succ m ih =>
    cases bs with
    | nil => simp [readLE] at h
    | cons b tl =>
      simp only [readLE] at h
      cases hr : readLE m tl with
      | none => rw [hr] at h; simp at h
      | some p =>
        obtain ⟨w, r⟩ := p
        rw [hr] at h
        simp only [Option.map_some'] at h
        cases h
        have := ih hr
        simp only [List.length_cons]
        omega

theorem decodeVarintU64_length {bs rest : List Nat} {v : Nat}
    (h : decodeVarintU64 bs = some (v, rest)) : rest.length < bs.length := by
  cases bs with
  | nil => simp [decodeVarintU64] at h
  | cons b tl =>
    simp only [decodeVarintU64] at h
    split at h
    · cases h
      simp
    · split at h
      · have := readLE_length h
        simp only [List.length_cons]
        omega
      · split at h
        · have := readLE_length h
          simp only [List.length_cons]
          omega
        · split at h
          · have := readLE_length h
            simp only [List.length_cons]
            omega
          · cases h

theorem decodeBytes_length {bs rest : List Nat} {v : List Nat}
    (h : decodeBytes bs = some (v, rest)) : rest.length < bs.length := by
  unfold decodeBytes at h
  split at h
  · cases h
  case _ len r1 heq =>
    split at h
    · cases h
      have h1 := decodeVarintU64_length heq
      have h2 : (List.drop len r1).length ≤ r1.length := by
        simp [List.length_drop]
      omega
    · cases h

theorem decodeKV_length {bs : List Nat} {kv : Key × Value} {n : Nat}
    (h : decodeKV bs = some (kv, n)) : 0 < n ∧ n ≤ bs.length := by
  unfold decodeKV at h
  split at h
  · cases h
  case _ k r1 h1 =>
    split at h
    · cases h
    case _ v r2 h2 =>
      cases h
      have l1 := decodeBytes_length h1
      have l2 := decodeBytes_length h2
      omega

/-! ## CRC32-C (`utils::crc32`, Castagnoli polynomial, reflected) -/

/-- One shift-xor step of the reflected CRC32-C computation. -/
def crc32cStep (c : Nat) : Nat :=
  if c % 2 = 1 then Nat.xor (c / 2) 0x82F63B78 else c / 2

/-- Eight applications of `crc32cStep` (one input byte). -/
def crc32cByte (c b : Nat) : Nat :=
  crc32cStep (crc32cStep (crc32cStep (crc32cStep
    (crc32cStep (crc32cStep (crc32cStep (crc32cStep (Nat.xor c (b % 256)))))))))

/-- CRC32-C of a byte sequence, as computed by `utils::crc32` over
`key` followed by `value`. -/
def crc32c (data : List Nat) : Nat :=
  Nat.xor (data.foldl crc32cByte 0xFFFFFFFF) 0xFFFFFFFF

/-! ## Write-ahead log (`wal.rs`) -/

/-- A persisted WAL record (`wal::LogItem`). -/
structure LogItem where
  key : Key
  value : Value
  checksum : Nat
deriving DecidableEq, Repr

/-- `LogItem::new`: the checksum is the CRC32-C of key followed by value. -/
def LogItem.make (k : Key) (v : Value) : LogItem :=
  ⟨k, v, crc32c (k ++ v)⟩

/-- `LogItem::check`: recompute the CRC and compare with the stored one. -/
def LogItem.check (it : LogItem) : Bool :=
  it.checksum == crc32c (it.key ++ it.value)

/-- `LogItem::is_empty`: the all-zero end-of-stream sentinel. -/
def LogItem.isEmpty (it : LogItem) : Bool :=
  it.key.isEmpty && it.value.isEmpty && it.checksum == 0

/-- bincode encoding of a `LogItem` (fields in declaration order). -/
def encodeLogItem (it : LogItem) : List Nat :=
  encodeBytes it.key ++ encodeBytes it.value ++ encodeVarint it.checksum

/-- bincode decoding of a `LogItem`. -/
def decodeLogItem (bs : List Nat) : Option (LogItem × List Nat) :=
  match decodeBytes bs with
  | none => none
  | some (k, r1) =>
    match decodeBytes r1 with
    | none => none
    | some (v, r2) =>
      match decodeVarintU32 r2 with
      | none => none
      | some (c, r3) => some (⟨k, v, c⟩, r3)

theorem decodeVarintU32_length {bs rest : List Nat} {v : Nat}
    (h : decodeVarintU32 bs = some (v, rest)) : rest.length < bs.length := by
  cases bs with
  | nil => simp [decodeVarintU32] at h
  | cons b tl =>
    simp only [decodeVarintU32] at h
    split at h
    · cases h
      simp
    · split at h
      · have := readLE_length h
        simp only [List.length_cons]
        omega
      · split at h
        · have := readLE_length h
          simp only [List.length_cons]
          omega
        · cases h

theorem decodeLogItem_length {bs rest : List Nat} {it : LogItem}
    (h : decodeLogItem bs = some (it, rest)) : rest.length < bs.length := by
  unfold decodeLogItem at h
  split at h
  · cases h
  case _ k r1 h1 =>
    split at h
    · cases h
    case _ v r2 h2 =>
      split at h
      · cases h
      case _ c r3 h3 =>
        cases h
        have l1 := decodeBytes_length h1
        have l2 := decodeBytes_length h2
        have l3 := decodeVarintU32_length h3
        omega

/-- One step of `WriteAheadLogIter::next`: a bincode decode error ends the
stream (`None`); the all-zero sentinel ends the stream; a CRC mismatch
yields `CorruptedData`; otherwise the decoded record is yielded.  (From a
pure byte source, `decode_from_reader` can only fail with a
`LiteDbError::Decoding`, so the `_ => Some(Err(err))` arm of the source is
unreachable and does not appear here.) -/
def walNext (bs : List Nat) : Option (Except Unit (LogItem × List Nat)) :=
  match decodeLogItem bs with
  | none => none
  | some (it, rest) =>
    if it.isEmpty then none
    else if it.check then some (.ok (it, rest))
    else some (.error ())

/-- Fuel-driven iteration of the whole WAL: the sequence of records
yielded before termination, or the `CorruptedData` error. -/
def walRunF : Nat → List Nat → Except Unit (List LogItem)
  | 0, _ => .ok []
  | fuel + 1, bs =>
    match walNext bs with
    | none => .ok []
    | some (.error e) => .error e
    | some (.ok (it, rest)) => (walRunF fuel rest).map (fun items => it :: items)

/-- Iterating a WAL whose file holds `bs`; `bs.length + 1` fuel always
suffices because every decoded record consumes at least one byte. -/
def walRun (bs : List Nat) : Except Unit (List LogItem) :=
  walRunF (bs.length + 1) bs

theorem walRunF_fuel {fuel : Nat} {bs : List Nat} (h : bs.length < fuel) :
    walRunF fuel bs = walRun bs := by
  unfold walRun
  induction fuel using Nat.strong_induction_on generalizing bs with
  | _ fuel ih =>
    cases fuel with
    | zero => omega
    | succ m =>
      rw [walRunF]
      conv_rhs => rw [walRunF]
      cases hnext : walNext bs with
      | none => rfl
      | some r =>
        cases r with
        | error e => rfl
        | ok p =>
          obtain ⟨it, rest⟩ := p
          have hlen : rest.length < bs.length := by
            unfold walNext at hnext
            split at hnext
            · cases hnext
            case _ it2 rest2 hdec =>
              split at hnext
              · cases hnext
              · split at hnext
                · cases hnext
                  exact decodeLogItem_length hdec
                · cases hnext
          have h1 : walRunF m rest = walRunF (rest.length + 1) rest :=
            ih m (by omega) (by omega)
          have h2 : walRunF bs.length rest = walRunF (rest.length + 1) rest :=
            ih bs.length (by omega) (by omega)
          show (walRunF m rest).map (fun items => it :: items) =
            (walRunF bs.length rest).map (fun items => it :: items)
          rw [h1, h2]

/-! ## Ordered map (`crossbeam_skiplist::SkipMap` as a sorted association list)

The skip map is embedded as an association list kept strictly sorted by
`keyCmp`; `insert` replaces an existing binding; iteration order is the
list order.  -/

/-- `SkipMap::insert`: insert or replace, keeping the list sorted. -/
def mapInsert : List (Key × Value) → Key → Value → List (Key × Value)
  | [], k, v => [(k, v)]
  | (k0, v0) :: tl, k, v =>
    match keyCmp k k0 with
    | .lt => (k, v) :: (k0, v0) :: tl
    | .eq => (k, v) :: tl
    | .gt => (k0, v0) :: mapInsert tl k v

/-- `SkipMap::get`. -/
def mapLookup : List (Key × Value) → Key → Option Value
  | [], _ => none
  | (k0, v0) :: tl, k => if k = k0 then some v0 else mapLookup tl k

/-- The skip-map representation invariant: keys strictly ascending. -/
def entriesSorted (l : List (Key × Value)) : Prop :=
  l.Pairwise (fun p q => keyCmp p.1 q.1 = .lt)

instance entriesSortedDecidable (l : List (Key × Value)) :
    Decidable (entriesSorted l) := by
  unfold entriesSorted
  infer_instance

/-- Bound check for a half-open scan range `[lo, hi)` (`Bound::Included` /
`Bound::Excluded` as in `MemTableIterator::new`). -/
def inRangeB (lo hi : Option Key) (k : Key) : Bool :=
  (match lo with
   | none => true
   | some a => match keyCmp k a with | .lt => false | _ => true)
  && (match hi with
      | none => true
      | some b => match keyCmp k b with | .lt => true | _ => false)

/-! ## MemTable (`mem_table.rs`) -/

/-- In-memory state of a `MemTable`.  The WAL handle and directory are kept
outside the model; WAL appends are modelled as succeeding. -/
structure MemTableM where
  id : Nat
  entries : List (Key × Value)
  size_bytes : Nat
deriving DecidableEq, Repr

/-- `MemTable::open`: replay the WAL (last write wins) into a fresh map;
`size_bytes` starts from `AtomicUsize::new(0)` no matter what was
recovered.  A `CorruptedData` error from the WAL iterator is propagated. -/
def memTableOpen (id : Nat) (walBytes : List Nat) : Except Unit MemTableM :=
  (walRun walBytes).map (fun items =>
    ⟨id, items.foldl (fun m it => mapInsert m it.key it.value) [], 0⟩)

/-- `MemTable::set`: append to the WAL (always succeeds in the model), add
`key.len + value.len` to the size counter, insert into the map. -/
def memSet (mt : MemTableM) (k : Key) (v : Value) : MemTableM :=
  { mt with
    entries := mapInsert mt.entries k v
    size_bytes := mt.size_bytes + (k.length + v.length) }

/-- `MemTable::get`: in-memory lookup (never fails). -/
def memGet (mt : MemTableM) (k : Key) : Option Value :=
  mapLookup mt.entries k

/-- Byte accounting of a batch (`BatchOperations::size_bytes`). -/
def batchSize (ops : List (Key × Value)) : Nat :=
  ops.foldl (fun s p => s + (p.1.length + p.2.length)) 0

/-- `MemTable::apply_batch`: one WAL batch append, then the in-map inserts
in batch order. -/
def memApplyBatch (mt : MemTableM) (ops : List (Key × Value)) : MemTableM :=
  { mt with
    entries := ops.foldl (fun m p => mapInsert m p.1 p.2) mt.entries
    size_bytes := mt.size_bytes + batchSize ops }

/-- `MemTable::is_full`. -/
def memIsFull (mt : MemTableM) (maxEntries maxSizeBytes : Nat) : Bool :=
  decide (maxEntries ≤ mt.entries.length) || decide (maxSizeBytes ≤ mt.size_bytes)

/-- `MemTable::scan` = `SkipMap::range` over `[lo, hi)`: the in-order
entries within the bounds. -/
def memScanList (mt : MemTableM) (lo hi : Option Key) : List (Key × Value) :=
  mt.entries.filter (fun p => inRangeB lo hi p.1)

/-! ## SSTable (`ss_table.rs`) -/

/-- `SSTableMetadata`. -/
structure SSTableMetadataM where
  id : Nat
  first_key : Key × Nat
  last_key : Key × Nat
  total_size : Nat
  num_entries : Nat

/-- An `SSTable`: the mmap'd data region (`file`), the sparse index and the
Bloom filter.  The Bloom filter is embedded as its characteristic
predicate; every concrete table built below uses exact key membership,
which is a sound Bloom filter (it never excludes a present key). -/
structure SSTableModel where
  metadata : SSTableMetadataM
  file : List Nat
  index : List (Key × Nat)
  bloom : Key → Bool

/-- Accumulator of the `MemTable::save` write loop. -/
structure SaveAcc where
  file : List Nat
  index : List (Key × Nat)
  size : Nat
  lastWritten : Nat

/-- One iteration of the `MemTable::save` loop: encode the record, mark the
Bloom filter (tracked via the final key list), and push a sparse-index
boundary when the pre-append serialized size is 0 or a multiple of
`sparse_index_range_size`. -/
def saveStep (sparse : Nat) (acc : SaveAcc) (kv : Key × Value) : SaveAcc :=
  let bytes := encodeKV kv.1 kv.2
  { file := acc.file ++ bytes
    index :=
      if acc.size == 0 || acc.size % sparse == 0 then
        acc.index ++ [(kv.1, acc.size)]
      else acc.index
    size := acc.size + bytes.length
    lastWritten := bytes.length }

/-- `MemTable::save`: walk the map in ascending key order, building the
data region, sparse index and Bloom filter, then append the terminator
index entry and assemble the metadata.  On an empty memtable the source
would panic (`entries.back().unwrap()`), modelled as `none`. -/
def saveModel (mt : MemTableM) (sparse : Nat) : Option SSTableModel :=
  match mt.entries with
  | [] => none
  | e0 :: etl =>
    let acc := (e0 :: etl).foldl (saveStep sparse) ⟨[], [], 0, 0⟩
    let lastE := (e0 :: etl).getLast (List.cons_ne_nil e0 etl)
    some
      { metadata :=
          ⟨mt.id, (e0.1, 0), (lastE.1, acc.size - acc.lastWritten),
            mt.size_bytes, (e0 :: etl).length⟩
        file := acc.file
        index := acc.index ++ [(lastE.1, acc.size)]
        bloom := fun k => ((e0 :: etl).map Prod.fst).contains k }

/-- `SSTableSparseIndex::get_offset`: partition-point search saturated at 0;
the source indexes `items[idx]` (panicking on an empty index), modelled by
`List.get?`. -/
def getOffset (items : List (Key × Nat)) (key : Key) : Option Nat :=
  let pp := (items.takeWhile (fun it => keyCmp it.1 key == Ordering.lt)).length
  let idx := if pp = 0 then 0 else pp - 1
  if items.length < idx then none
  else (items.get? idx).map Prod.snd

/-- An `SSTableIterator`. -/
structure SSTIter where
  table : SSTableModel
  offset : Option Nat
  startKey : Option Key
  stopKey : Option Key

/-- `SSTableIterator::new`: the initial offset comes from the sparse index
when a lower bound is given, else 0. -/
def sstIterNew (t : SSTableModel) (lo hi : Option Key) : SSTIter :=
  { table := t
    offset :=
      match lo with
      | some firstKey => getOffset t.index firstKey
      | none => some 0
    startKey := lo
    stopKey := hi }

/-- The inner decode loop of `SSTableIterator::next`: skip records below
the start key, stop at the stop key, surface decode errors.  Fuel bounds
the number of skipped records (each consumes at least one byte). -/
def sstIterLoop : Nat → SSTIter → Nat → Option (Except Unit ((Key × Value) × SSTIter))
  | 0, _, _ => none
  | fuel + 1, it, ro =>
    match decodeKV (it.table.file.drop ro) with
    | none => some (.error ())
    | some ((k, v), num) =>
      if (match it.startKey with
          | some sk => keyCmp k sk == Ordering.lt
          | none => false) then
        sstIterLoop fuel it (ro + num)
      else if (match it.stopKey with
               | some ek => !(keyCmp k ek == Ordering.lt)
               | none => false) then
        none
      else
        some (.ok ((k, v), { it with offset := some (ro + num) }))

/-- `SSTableIterator::next`: exhausted when the offset passed the last
record's offset. -/
def sstIterNext (it : SSTIter) : Option (Except Unit ((Key × Value) × SSTIter)) :=
  match it.offset with
  | none => none
  | some off =>
    if it.table.metadata.last_key.2 < off then none
    else sstIterLoop (it.table.file.length + 1) it off

/-- The loop of `SSTable::get`: stream from the sparse-index offset until
the key is found or passed; `?` propagates decode errors; a tombstone
resolves to `None`. -/
def ssTableGetLoop : Nat → SSTIter → Key → Except Unit (Option Value)
  | 0, _, _ => .ok none
  | fuel + 1, it, key =>
    match sstIterNext it with
    | none => .ok none
    | some (.error e) => .error e
    | some (.ok ((k, v), it2)) =>
      if keyCmp k key = .gt then .ok none
      else if k = key then (if v = TOMBSTONE then .ok none else .ok (some v))
      else ssTableGetLoop fuel it2 key

/-- `SSTable::get`: Bloom filter first, then the bounded iterator. -/
def ssTableGet (t : SSTableModel) (key : Key) : Except Unit (Option Value) :=
  if t.bloom key then
    ssTableGetLoop (t.file.length + 1) (sstIterNew t (some key) none) key
  else .ok none

/-- Fuel-driven materialization of an `SSTableIterator` stream (error-free
sources only: the stream is modelled up to the first decode error). -/
def sstIterRunF : Nat → SSTIter → List (Key × Value)
  | 0, _ => []
  | fuel + 1, it =>
    match sstIterNext it with
    | none => []
    | some (.error _) => []
    | some (.ok (kv, it2)) => kv :: sstIterRunF fuel it2

/-- `SSTable::scan` materialized as the list of yielded records. -/
def sstScanList (t : SSTableModel) (lo hi : Option Key) : List (Key × Value) :=
  sstIterRunF (t.file.length + 1) (sstIterNew t lo hi)

/-! ## Merging iterator (`iterator.rs`)

Sources are embedded as the (error-free) lists of records they yield, in
the order they were pushed (index 0 oldest).  The `BinaryHeap` is embedded
as an unordered list together with a pop-max operation; heap elements are
unique under the heap order (one pending record per source index), so the
pop is deterministic.  -/

/-- `ItemPack(usize, Key, Value)`. -/
structure ItemPack where
  idx : Nat
  key : Key
  val : Value
deriving DecidableEq, Repr

/-- The `Ord for ItemPack` of the source: keys compared reversed (so the
heap's max is the smallest key), ties broken by source index ascending (so
among equal keys the largest index is the max). -/
def packCmp (p q : ItemPack) : Ordering :=
  match keyCmp q.key p.key with
  | .eq => compare p.idx q.idx
  | o => o

/-- `BinaryHeap::pop`: remove a maximal element under `packCmp`. -/
def heapPopMax : List ItemPack → Option (ItemPack × List ItemPack)
  | [] => none
  | p :: ps =>
    match heapPopMax ps with
    | none => some (p, [])
    | some (q, rest) =>
      if packCmp p q = .lt then some (q, p :: rest) else some (p, q :: rest)

/-- The state of a `CombineIterator`: the advanced iterators and the heap. -/
structure CombState where
  iterators : List (List (Key × Value))
  sorter : List ItemPack

/-- Total number of pending records: the termination measure. -/
def combSize (s : CombState) : Nat :=
  s.sorter.length + (s.iterators.map List.length).sum

/-- The seeding loop of `CombineIterator::try_new`: advance every source
once, pushing `ItemPack(idx, k, v)` for each yielded head. -/
def combSeed (i : Nat) : List (List (Key × Value)) → List ItemPack
  | [] => []
  | src :: tl =>
    match src with
    | [] => combSeed (i + 1) tl
    | (k, v) :: _ => ⟨i, k, v⟩ :: combSeed (i + 1) tl

/-- `CombineIterator::try_new` on error-free sources. -/
def combInit (sources : List (List (Key × Value))) : CombState :=
  { iterators := sources.map List.tail
    sorter := combSeed 0 sources }

/-- `CombineIterator::advance`: pull the next record of source `i` (if
any) and push it onto the heap. -/
def combAdvance (s : CombState) (i : Nat) : CombState :=
  match s.iterators.get? i with
  | some ((k, v) :: rest) =>
    { iterators := s.iterators.set i rest, sorter := ⟨i, k, v⟩ :: s.sorter }
  | _ => s

/-- The duplicate-skipping loop of `CombineIterator::next`: while the top
of the heap carries the emitted key, pop it and advance its source. -/
def skipDupsF : Nat → Key → CombState → CombState
  | 0, _, s => s
  | fuel + 1, k, s =>
    match heapPopMax s.sorter with
    | none => s
    | some (q, rest) =>
      if q.key = k then
        skipDupsF fuel k (combAdvance { s with sorter := rest } q.idx)
      else s

/-- `CombineIterator::next`: pop the best pack, advance its source, skip
duplicates of the emitted key, yield. -/
def combNext (s : CombState) : Option ((Key × Value) × CombState) :=
  match heapPopMax s.sorter with
  | none => none
  | some (item, rest) =>
    let s1 := combAdvance { s with sorter := rest } item.idx
    let s2 := skipDupsF (combSize s1 + 1) item.key s1
    some ((item.key, item.val), s2)

/-- Fuel-driven materialization of the whole merged stream. -/
def combRunF : Nat → CombState → List (Key × Value)
  | 0, _ => []
  | fuel + 1, s =>
    match combNext s with
    | none => []
    | some (kv, s2) => kv :: combRunF fuel s2

/-- The merged stream of a `CombineIterator` over the given sources
(`combSize + 1` fuel always suffices: every `next` consumes a record). -/
def combRun (sources : List (List (Key × Value))) : List (Key × Value) :=
  combRunF (combSize (combInit sources) + 1) (combInit sources)

/-- Specification-side definition, following the words of the spec: the
value for `k` coming from the newest (highest-index) source containing
`k`.  Later sources override earlier ones. -/
def newestVal (sources : List (List (Key × Value))) (k : Key) : Option Value :=
  sources.foldl
    (fun acc src =>
      match mapLookup src k with
      | some v => some v
      | none => acc)
    none

/-! ### Order lemmas for `packCmp` -/

theorem packCmp_lt_iff {p q : ItemPack} :
    packCmp p q = .lt ↔
      (keyCmp q.key p.key = .lt ∨ (p.key = q.key ∧ p.idx < q.idx)) := by
  obtain ⟨pi, pk, pv⟩ := p
  obtain ⟨qi, qk, qv⟩ := q
  simp only [packCmp]
  cases h : keyCmp qk pk with
  | lt => simp
  | eq =>
    have hk : qk = pk := keyCmp_eq_iff.mp h
    subst hk
    simp [keyCmp_refl, Nat.compare_eq_lt]
  | gt =>
    have hne : pk ≠ qk := by
      intro he
      subst he
      exact absurd h (by simp [keyCmp_refl])
    simp [hne]

theorem packCmp_gt_iff {p q : ItemPack} :
    packCmp p q = .gt ↔
      (keyCmp p.key q.key = .lt ∨ (p.key = q.key ∧ q.idx < p.idx)) := by
  obtain ⟨pi, pk, pv⟩ := p
  obtain ⟨qi, qk, qv⟩ := q
  simp only [packCmp]
  cases h : keyCmp qk pk with
  | lt =>
    have h2 : keyCmp pk qk = .gt := keyCmp_lt_iff_gt.mp h
    have hne : pk ≠ qk := (keyCmp_lt_ne h).symm
    simp [h2, hne]
  | eq =>
    have hk : qk = pk := keyCmp_eq_iff.mp h
    subst hk
    simp [keyCmp_refl, Nat.compare_eq_gt]
  | gt =>
    have h2 : keyCmp pk qk = .lt := keyCmp_lt_iff_gt.mpr h
    simp [h2]

theorem packCmp_not_lt_iff {p q : ItemPack} :
    packCmp p q ≠ .lt ↔
      (keyCmp p.key q.key = .lt ∨ (p.key = q.key ∧ q.idx ≤ p.idx)) := by
  obtain ⟨pi, pk, pv⟩ := p
  obtain ⟨qi, qk, qv⟩ := q
  simp only [packCmp]
  cases h : keyCmp qk pk with
  | lt =>
    have h2 : keyCmp pk qk = .gt := keyCmp_lt_iff_gt.mp h
    have hne : pk ≠ qk := (keyCmp_lt_ne h).symm
    simp [h2, hne]
  | eq =>
    have hk : qk = pk := keyCmp_eq_iff.mp h
    subst hk
    simp [keyCmp_refl, Nat.compare_eq_lt, Nat.not_lt]
  | gt =>
    have h2 : keyCmp pk qk = .lt := keyCmp_lt_iff_gt.mpr h
    simp [h2]

theorem packLt_asymm {p q : ItemPack} (h : packCmp p q = .lt) :
    packCmp q p ≠ .lt := by
  rw [packCmp_lt_iff] at h
  rw [packCmp_not_lt_iff]
  rcases h with h1 | ⟨h1, h2⟩
  · exact Or.inl h1
  · exact Or.inr ⟨h1.symm, Nat.le_of_lt h2⟩

theorem packGe_trans {a b c : ItemPack} (hab : packCmp a b ≠ .lt)
    (hbc : packCmp b c ≠ .lt) : packCmp a c ≠ .lt := by
  rw [packCmp_not_lt_iff] at hab hbc ⊢
  rcases hab with h1 | ⟨h1, h2⟩
  · rcases hbc with h3 | ⟨h3, h4⟩
    · exact Or.inl (keyCmp_lt_trans h1 h3)
    · rw [h3] at h1
      exact Or.inl h1
  · rcases hbc with h3 | ⟨h3, h4⟩
    · rw [h1]
      exact Or.inl h3
    · exact Or.inr ⟨h1.trans h3, Nat.le_trans h4 h2⟩

/-! ### Heap pop lemmas -/

theorem heapPopMax_eq_none_iff {l : List ItemPack} :
    heapPopMax l = none ↔ l = [] := by
  cases l with
  | nil => simp [heapPopMax]
  | cons p ps =>
    simp only [heapPopMax]
    cases h : heapPopMax ps with
    | none => simp
    | some pr =>
      obtain ⟨q, rest⟩ := pr
      by_cases hc : packCmp p q = .lt <;> simp [hc]

theorem heapPopMax_spec {l : List ItemPack} {q : ItemPack} {rest : List ItemPack}
    (h : heapPopMax l = some (q, rest)) :
    l.Perm (q :: rest) ∧ ∀ x ∈ rest, packCmp q x ≠ .lt := by
  induction l generalizing q rest with
  | nil => simp [heapPopMax] at h
  | cons p ps ih =>
    simp only [heapPopMax] at h
    cases hps : heapPopMax ps with
    | none =>
      rw [hps] at h
      dsimp only at h
      cases h
      have hnil : ps = [] := heapPopMax_eq_none_iff.mp hps
      subst hnil
      exact ⟨List.Perm.refl _, fun x hx => absurd hx (by simp)⟩
    | some pr =>
      obtain ⟨q0, rest0⟩ := pr
      rw [hps] at h
      dsimp only at h
      obtain ⟨hperm0, hmax0⟩ := ih hps
      by_cases hc : packCmp p q0 = .lt
      · rw [if_pos hc] at h
        cases h
        refine ⟨(List.Perm.cons p hperm0).trans (List.Perm.swap q p rest0), ?_⟩
        intro x hx
        cases hx with
        | head => exact packLt_asymm hc
        | tail _ hx2 => exact hmax0 x hx2
      · rw [if_neg hc] at h
        cases h
        refine ⟨List.Perm.cons p hperm0, ?_⟩
        intro x hx
        cases hx with
        | head => exact hc
        | tail _ hx2 => exact packGe_trans hc (hmax0 x hx2)

/-! ### List helpers for the invariant proofs -/

theorem get?_set_self {α : Type} : ∀ (l : List α) (i : Nat) (a : α),
    i < l.length → (l.set i a).get? i = some a := by
  intro l
  induction l with
  | nil => intro i a h; simp at h
  | cons x xs ih =>
    intro i a h
    cases i with
    | zero => simp
    | succ j =>
      simp only [List.set_cons_succ, List.get?_cons_succ]
      exact ih j a (by simpa using h)

theorem get?_set_ne {α : Type} : ∀ (l : List α) (i j : Nat) (a : α),
    i ≠ j → (l.set i a).get? j = l.get? j := by
  intro l
  induction l with
  | nil => intro i j a _; simp
  | cons x xs ih =>
    intro i j a hne
    cases i with
    | zero =>
      cases j with
      | zero => exact absurd rfl hne
      | succ j2 => simp
    | succ i2 =>
      cases j with
      | zero => simp
      | succ j2 =>
        simp only [List.set_cons_succ, List.get?_cons_succ]
        exact ih i2 j2 a (by omega)

theorem set_of_get? {α : Type} : ∀ (l : List α) (i : Nat) (a : α),
    l.get? i = some a → l.set i a = l := by
  intro l
  induction l with
  | nil => intro i a h; simp at h
  | cons x xs ih =>
    intro i a h
    cases i with
    | zero => simp at h; simp [h]
    | succ j =>
      simp only [List.get?_cons_succ] at h
      simp [ih j a h]

theorem sum_len_set_tail {α : Type} :
    ∀ (l : List (List α)) (i : Nat) (hd : α) (tl : List α),
      l.get? i = some (hd :: tl) →
      ((l.set i tl).map List.length).sum + 1 = (l.map List.length).sum := by
  intro l
  induction l with
  | nil => intro i hd tl h; simp at h
  | cons x xs ih =>
    intro i hd tl h
    cases i with
    | zero =>
      simp only [List.get?_cons_zero, Option.some.injEq] at h
      subst h
      simp [Nat.add_comm, Nat.add_assoc, Nat.add_left_comm]
    | succ j =>
      simp only [List.get?_cons_succ] at h
      have := ih j hd tl h
      simp only [List.set_cons_succ, List.map_cons, List.sum_cons]
      omega

/-! ### Fields of popped sources -/

/-- Drop the head of every source whose head key is `k` (the effect on the
remaining inputs of emitting key `k`). -/
def popK (k : Key) (rems : List (List (Key × Value))) : List (List (Key × Value)) :=
  rems.map (fun src =>
    match src with
    | (k0, v0) :: tl => if k0 = k then tl else (k0, v0) :: tl
    | [] => [])

/-- Every per-source input is strictly sorted by key. -/
def sortedAll (rems : List (List (Key × Value))) : Prop :=
  ∀ src ∈ rems, entriesSorted src

theorem sortedAll_popK {k : Key} {rems : List (List (Key × Value))}
    (h : sortedAll rems) : sortedAll (popK k rems) := by
  intro src hsrc
  simp only [popK, List.mem_map] at hsrc
  obtain ⟨src0, hsrc0, heq⟩ := hsrc
  have hs := h src0 hsrc0
  cases src0 with
  | nil => cases heq; exact List.Pairwise.nil
  | cons p tl =>
    obtain ⟨k0, v0⟩ := p
    simp only at heq
    by_cases hk : k0 = k
    · rw [if_pos hk] at heq
      cases heq
      exact (List.pairwise_cons.mp hs).2
    · rw [if_neg hk] at heq
      cases heq
      exact hs

theorem entriesSorted_head_lt {k0 : Key} {v0 : Value} {tl : List (Key × Value)}
    (h : entriesSorted ((k0, v0) :: tl)) :
    ∀ p ∈ tl, keyCmp k0 p.1 = .lt :=
  fun p hp => (List.pairwise_cons.mp h).1 p hp

/-! ### `mapLookup` lemmas -/

theorem mapLookup_eq_none_iff {l : List (Key × Value)} {k : Key} :
    mapLookup l k = none ↔ k ∉ l.map Prod.fst := by
  induction l with
  | nil => simp [mapLookup]
  | cons p tl ih =>
    obtain ⟨k0, v0⟩ := p
    by_cases hk : k = k0
    · subst hk
      simp [mapLookup]
    · simp [mapLookup, hk, ih, Ne.symm hk]

theorem mapLookup_some_mem {l : List (Key × Value)} {k : Key} {v : Value}
    (h : mapLookup l k = some v) : (k, v) ∈ l := by
  induction l with
  | nil => simp [mapLookup] at h
  | cons p tl ih =>
    obtain ⟨k0, v0⟩ := p
    by_cases hk : k = k0
    · subst hk
      simp [mapLookup] at h
      subst h
      exact List.mem_cons_self _ _
    · simp only [mapLookup, if_neg hk] at h
      exact List.mem_cons_of_mem _ (ih h)

/-- In a sorted source all of whose keys are `≥ k`, containing `k` means
`k` is at the head. -/
theorem contains_imp_head {src : List (Key × Value)} {k : Key} {v : Value}
    (hs : entriesSorted src)
    (hge : ∀ p ∈ src, keyCmp p.1 k ≠ .lt)
    (hl : mapLookup src k = some v) :
    ∃ tl, src = (k, v) :: tl := by
  cases src with
  | nil => simp [mapLookup] at hl
  | cons p tl =>
    obtain ⟨k0, v0⟩ := p
    by_cases hk : k = k0
    · subst hk
      simp [mapLookup] at hl
      subst hl
      exact ⟨tl, rfl⟩
    · simp only [mapLookup, if_neg hk] at hl
      have hmem := mapLookup_some_mem hl
      have hlt : keyCmp k0 k = .lt :=
        entriesSorted_head_lt hs (k, v) hmem
      exact absurd hlt (hge (k0, v0) (List.mem_cons_self _ _))

/-! ### `newestVal` fold lemmas -/

theorem nvFold_none {k : Key} :
    ∀ (srcs : List (List (Key × Value))) (acc : Option Value),
      (∀ s ∈ srcs, mapLookup s k = none) →
      srcs.foldl
        (fun acc src =>
          match mapLookup src k with
          | some v => some v
          | none => acc) acc = acc := by
  intro srcs
  induction srcs with
  | nil => intro acc _; rfl
  | cons s tl ih =>
    intro acc h
    have hs : mapLookup s k = none := h s (List.mem_cons_self _ _)
    simp only [List.foldl_cons, hs]
    exact ih acc (fun s2 h2 => h s2 (List.mem_cons_of_mem _ h2))

theorem nvFold_last {k : Key} {v : Value} :
    ∀ (srcs : List (List (Key × Value))) (i : Nat) (acc : Option Value)
      (src : List (Key × Value)),
      srcs.get? i = some src →
      mapLookup src k = some v →
      (∀ j src2, i < j → srcs.get? j = some src2 → mapLookup src2 k = none) →
      srcs.foldl
        (fun acc src =>
          match mapLookup src k with
          | some v => some v
          | none => acc) acc = some v := by
  intro srcs
  induction srcs with
  | nil => intro i acc src h _ _; simp at h
  | cons s tl ih =>
    intro i acc src hget hl hlater
    cases i with
    | zero =>
      simp only [List.get?_cons_zero, Option.some.injEq] at hget
      subst hget
      simp only [List.foldl_cons, hl]
      refine nvFold_none tl (some v) ?_
      intro s2 h2
      obtain ⟨n, hn⟩ := List.mem_iff_get?.mp h2
      exact hlater (n + 1) s2 (Nat.succ_pos n) (by simpa using hn)
    | succ j =>
      simp only [List.get?_cons_succ] at hget
      simp only [List.foldl_cons]
      refine ih j _ src hget hl ?_
      intro j2 src2 hj2 hget2
      exact hlater (j2 + 1) src2 (by omega) (by simpa using hget2)

theorem nvFold_congr {k : Key} :
    ∀ (srcs1 srcs2 : List (List (Key × Value))) (acc : Option Value),
      srcs1.length = srcs2.length →
      (∀ i s1 s2, srcs1.get? i = some s1 → srcs2.get? i = some s2 →
        mapLookup s1 k = mapLookup s2 k) →
      srcs1.foldl
        (fun acc src =>
          match mapLookup src k with
          | some v => some v
          | none => acc) acc =
      srcs2.foldl
        (fun acc src =>
          match mapLookup src k with
          | some v => some v
          | none => acc) acc := by
  intro srcs1
  induction srcs1 with
  | nil =>
    intro srcs2 acc hlen _
    cases srcs2 with
    | nil => rfl
    | cons _ _ => simp at hlen
  | cons s1 tl1 ih =>
    intro srcs2 acc hlen h
    cases srcs2 with
    | nil => simp at hlen
    | cons s2 tl2 =>
      have h0 : mapLookup s1 k = mapLookup s2 k := h 0 s1 s2 rfl rfl
      simp only [List.foldl_cons, h0]
      exact ih tl2 _ (by simpa using hlen) (fun i a b ha hb =>
        h (i + 1) a b (by simpa using ha) (by simpa using hb))

theorem newestVal_eq_of_lookup_eq {k : Key}
    {srcs1 srcs2 : List (List (Key × Value))}
    (hlen : srcs1.length = srcs2.length)
    (h : ∀ i s1 s2, srcs1.get? i = some s1 → srcs2.get? i = some s2 →
      mapLookup s1 k = mapLookup s2 k) :
    newestVal srcs1 k = newestVal srcs2 k :=
  nvFold_congr srcs1 srcs2 none hlen h

/-! ### The heap/iterator invariant

During a run, `rems` is the per-source list of not-yet-consumed records;
the heap holds exactly the head of every nonempty source, tagged with its
index, and the advanced iterators hold the tails.  -/

/-- The `CombineIterator` state invariant relative to the remaining
sources `rems`. -/
def CombInv (rems : List (List (Key × Value))) (s : CombState) : Prop :=
  s.iterators = rems.map List.tail ∧
  (∀ x : ItemPack,
    x ∈ s.sorter ↔ ∃ tl, rems.get? x.idx = some ((x.key, x.val) :: tl)) ∧
  s.sorter.Pairwise (fun a b => a.idx ≠ b.idx)

theorem combSeed_mem :
    ∀ (srcs : List (List (Key × Value))) (i : Nat) (x : ItemPack),
      x ∈ combSeed i srcs ↔
        (i ≤ x.idx ∧
          ∃ tl, srcs.get? (x.idx - i) = some ((x.key, x.val) :: tl)) := by
  intro srcs
  induction srcs with
  | nil => intro i x; simp [combSeed]
  | cons src tl ih =>
    intro i x
    cases src with
    | nil =>
      simp only [combSeed]
      rw [ih (i + 1) x]
      constructor
      · intro ⟨h1, tl2, h2⟩
        refine ⟨by omega, tl2, ?_⟩
        have hd : x.idx - i = (x.idx - (i + 1)) + 1 := by omega
        rw [hd]
        simpa using h2
      · intro ⟨h1, tl2, h2⟩
        by_cases hx : x.idx = i
        · rw [hx] at h2
          simp at h2
        · have hd : x.idx - i = (x.idx - (i + 1)) + 1 := by omega
          rw [hd] at h2
          simp only [List.get?_cons_succ] at h2
          exact ⟨by omega, tl2, h2⟩
    | cons p rest =>
      obtain ⟨k, v⟩ := p
      simp only [combSeed, List.mem_cons]
      rw [ih (i + 1) x]
      constructor
      · intro h
        rcases h with h | ⟨h1, tl2, h2⟩
        · subst h
          exact ⟨Nat.le_refl i, rest, by simp⟩
        · have hd : x.idx - i = (x.idx - (i + 1)) + 1 := by omega
          refine ⟨by omega, tl2, ?_⟩
          rw [hd]
          simpa using h2
      · intro ⟨h1, tl2, h2⟩
        by_cases hx : x.idx = i
        · rw [hx] at h2
          simp only [Nat.sub_self, List.get?_cons_zero, Option.some.injEq,
            List.cons.injEq, Prod.mk.injEq] at h2
          obtain ⟨⟨hk, hv⟩, _⟩ := h2
          left
          obtain ⟨xi, xk, xv⟩ := x
          simp only at hx hk hv
          simp [hx, hk.symm, hv.symm]
        · have hd : x.idx - i = (x.idx - (i + 1)) + 1 := by omega
          rw [hd] at h2
          simp only [List.get?_cons_succ] at h2
          exact Or.inr ⟨by omega, tl2, h2⟩

theorem combSeed_idx_le :
    ∀ (srcs : List (List (Key × Value))) (i : Nat) (x : ItemPack),
      x ∈ combSeed i srcs → i ≤ x.idx := by
  intro srcs i x hx
  exact ((combSeed_mem srcs i x).mp hx).1

theorem combSeed_pairwise :
    ∀ (srcs : List (List (Key × Value))) (i : Nat),
      (combSeed i srcs).Pairwise (fun a b => a.idx ≠ b.idx) := by
  intro srcs
  induction srcs with
  | nil => intro i; simp [combSeed]
  | cons src tl ih =>
    intro i
    cases src with
    | nil => simpa [combSeed] using ih (i + 1)
    | cons p rest =>
      obtain ⟨k, v⟩ := p
      simp only [combSeed]
      refine List.Pairwise.cons ?_ (ih (i + 1))
      intro b hb
      have := combSeed_idx_le tl (i + 1) b hb
      simp only
      omega

/-- `CombineIterator::try_new` establishes the invariant with the full
sources as the remaining inputs. -/
theorem combInit_inv (sources : List (List (Key × Value))) :
    CombInv sources (combInit sources) := by
  refine ⟨rfl, ?_, combSeed_pairwise sources 0⟩
  intro x
  rw [show (combInit sources).sorter = combSeed 0 sources from rfl]
  rw [combSeed_mem sources 0 x]
  simp

/-- Popping the heap max `q` and advancing its source turns the invariant
for `rems` into the invariant for `rems` with `q`'s source advanced; the
total pending count drops by exactly one. -/
theorem inv_pop_advance {rems : List (List (Key × Value))} {s : CombState}
    {q : ItemPack} {rest : List ItemPack}
    (hinv : CombInv rems s) (hpop : heapPopMax s.sorter = some (q, rest)) :
    ∃ tlq, rems.get? q.idx = some ((q.key, q.val) :: tlq) ∧
      CombInv (rems.set q.idx tlq)
        (combAdvance { s with sorter := rest } q.idx) ∧
      combSize (combAdvance { s with sorter := rest } q.idx) + 1 = combSize s := by
  obtain ⟨hiter, hmem, hpw⟩ := hinv
  obtain ⟨hperm, hmax⟩ := heapPopMax_spec hpop
  have hqmem : q ∈ s.sorter := hperm.mem_iff.mpr (List.mem_cons_self _ _)
  obtain ⟨tlq, htlq⟩ := (hmem q).mp hqmem
  have hpw2 : (q :: rest).Pairwise (fun a b => a.idx ≠ b.idx) :=
    (hperm.pairwise_iff (by intro a b h; exact h.symm)).mp hpw
  have hqrest : ∀ b ∈ rest, q.idx ≠ b.idx := (List.pairwise_cons.mp hpw2).1
  have hrest_pw : rest.Pairwise (fun a b => a.idx ≠ b.idx) :=
    (List.pairwise_cons.mp hpw2).2
  -- membership in `rest`
  have hmem_rest : ∀ x : ItemPack, x ∈ rest ↔ (x ∈ s.sorter ∧ x.idx ≠ q.idx) := by
    intro x
    constructor
    · intro hx
      exact ⟨hperm.mem_iff.mpr (List.mem_cons_of_mem _ hx),
        fun he => hqrest x hx he.symm⟩
    · intro ⟨hx, hne⟩
      have := hperm.mem_iff.mp hx
      cases this with
      | head => exact absurd rfl hne
      | tail _ h2 => exact h2
  -- the iterator of q's source currently holds `tlq`
  have hitq : s.iterators.get? q.idx = some tlq := by
    rw [hiter, List.get?_map, htlq]
    rfl
  cases htl : tlq with
  | nil =>
    -- the source is exhausted: `combAdvance` is a no-op
    subst htl
    have hadv :
        combAdvance { s with sorter := rest } q.idx =
          { s with sorter := rest, iterators := s.iterators } := by
      unfold combAdvance
      simp only [hitq]
    refine ⟨[], htlq, ⟨?_, ?_, ?_⟩, ?_⟩
    · rw [hadv]
      show s.iterators = (rems.set q.idx []).map List.tail
      rw [List.map_set, hiter]
      simp only [List.tail_nil]
      have : (rems.map List.tail).get? q.idx = some ([] : List (Key × Value)) := by
        rw [List.get?_map, htlq]
        rfl
      rw [set_of_get? _ _ _ this]
    · intro x
      rw [hadv]
      show x ∈ rest ↔ _
      rw [hmem_rest x]
      by_cases hx : x.idx = q.idx
      · rw [hx]
        rw [get?_set_self]
        · simp only [hx, hmem x, htlq]
          constructor
          · intro ⟨⟨tl2, h2⟩, hne⟩
            exact absurd rfl hne
          · intro ⟨tl2, h2⟩
            cases h2
        · exact (List.get?_eq_some.mp htlq).1
      · rw [get?_set_ne _ _ _ _ (fun h => hx h.symm)]
        rw [hmem x]
        simp [hx]
    · rw [hadv]
      exact hrest_pw
    · rw [hadv]
      show rest.length + (s.iterators.map List.length).sum + 1 = combSize s
      unfold combSize
      have := hperm.length_eq
      simp only [List.length_cons] at this
      omega
  | cons hd tl2 =>
    obtain ⟨k2, v2⟩ := hd
    subst htl
    have hadv :
        combAdvance { s with sorter := rest } q.idx =
          { iterators := s.iterators.set q.idx tl2,
            sorter := ⟨q.idx, k2, v2⟩ :: rest } := by
      unfold combAdvance
      simp only [hitq]
    have hqlt : q.idx < rems.length := (List.get?_eq_some.mp htlq).1
    refine ⟨(k2, v2) :: tl2, htlq, ⟨?_, ?_, ?_⟩, ?_⟩
    · rw [hadv]
      show s.iterators.set q.idx tl2 = (rems.set q.idx ((k2, v2) :: tl2)).map List.tail
      rw [List.map_set, hiter]
      rfl
    · intro x
      rw [hadv]
      show x ∈ ⟨q.idx, k2, v2⟩ :: rest ↔ _
      by_cases hx : x.idx = q.idx
      · rw [hx, get?_set_self _ _ _ hqlt]
        constructor
        · intro hin
          cases hin with
          | head => exact ⟨tl2, rfl⟩
          | tail _ h2 =>
            exact absurd hx ((hmem_rest x).mp h2).2
        · intro ⟨tl3, h3⟩
          simp only [Option.some.injEq, List.cons.injEq, Prod.mk.injEq] at h3
          obtain ⟨⟨hk, hv⟩, _⟩ := h3
          obtain ⟨xi, xk, xv⟩ := x
          simp only at hx hk hv
          subst hx; subst hk; subst hv
          exact List.mem_cons_self _ _
      · rw [get?_set_ne _ _ _ _ (fun h => hx h.symm)]
        constructor
        · intro hin
          cases hin with
          | head => exact absurd rfl hx
          | tail _ h2 => exact (hmem x).mp ((hmem_rest x).mp h2).1
        · intro h2
          exact List.mem_cons_of_mem _ ((hmem_rest x).mpr ⟨(hmem x).mpr h2, hx⟩)
    · rw [hadv]
      refine List.Pairwise.cons ?_ hrest_pw
      intro b hb
      exact hqrest b hb
    · rw [hadv]
      show (⟨q.idx, k2, v2⟩ :: rest).length +
        ((s.iterators.set q.idx tl2).map List.length).sum + 1 = combSize s
      have hsum : ((s.iterators.set q.idx tl2).map List.length).sum + 1 =
          (s.iterators.map List.length).sum :=
        sum_len_set_tail s.iterators q.idx (k2, v2) tl2 hitq
      have hlen := hperm.length_eq
      simp only [List.length_cons] at hlen ⊢
      unfold combSize
      omega

theorem keyCmp_lt_asymm {a b : Key} (h : keyCmp a b = .lt) :
    keyCmp b a ≠ .lt :=
  fun h2 => keyCmp_lt_irrefl a (keyCmp_lt_trans h h2)

/-! ### Size bookkeeping and fuel stability -/

theorem combAdvance_size (s : CombState) (i : Nat) :
    combSize (combAdvance s i) ≤ combSize s := by
  unfold combAdvance
  cases hit : s.iterators.get? i with
  | none => exact Nat.le_refl _
  | some src =>
    cases src with
    | nil => exact Nat.le_refl _
    | cons hd rest =>
      obtain ⟨k, v⟩ := hd
      have := sum_len_set_tail s.iterators i (k, v) rest hit
      unfold combSize
      simp only [List.length_cons]
      omega

theorem skipDupsF_size :
    ∀ (fuel : Nat) (k : Key) (s : CombState),
      combSize (skipDupsF fuel k s) ≤ combSize s := by
  intro fuel
  induction fuel with
  | zero => intro k s; exact Nat.le_refl _
  | succ m ih =>
    intro k s
    unfold skipDupsF
    cases hpop : heapPopMax s.sorter with
    | none => exact Nat.le_refl _
    | some pr =>
      obtain ⟨q, rest⟩ := pr
      dsimp only
      by_cases hqk : q.key = k
      · rw [if_pos hqk]
        have h1 := combAdvance_size { s with sorter := rest } q.idx
        have h2 := ih k (combAdvance { s with sorter := rest } q.idx)
        have h3 : combSize { s with sorter := rest } + 1 = combSize s := by
          have hlen : s.sorter.length = rest.length + 1 := by
            have := (heapPopMax_spec hpop).1.length_eq
            simpa using this
          unfold combSize
          dsimp only
          omega
        omega
      · rw [if_neg hqk]

theorem combNext_size {s : CombState} {kv : Key × Value} {s2 : CombState}
    (h : combNext s = some (kv, s2)) : combSize s2 < combSize s := by
  unfold combNext at h
  cases hpop : heapPopMax s.sorter with
  | none => rw [hpop] at h; cases h
  | some pr =>
    obtain ⟨q, rest⟩ := pr
    rw [hpop] at h
    dsimp only at h
    cases h
    have hlen : s.sorter.length = rest.length + 1 := by
      have := (heapPopMax_spec hpop).1.length_eq
      simpa using this
    have h1 := combAdvance_size { s with sorter := rest } q.idx
    have h2 := skipDupsF_size
      (combSize (combAdvance { s with sorter := rest } q.idx) + 1) q.key
      (combAdvance { s with sorter := rest } q.idx)
    unfold combSize at h1 ⊢
    simp only at h1 h2 ⊢
    unfold combSize at h2
    omega

theorem combRunF_fuel {fuel : Nat} {s : CombState} (h : combSize s < fuel) :
    combRunF fuel s = combRunF (combSize s + 1) s := by
  induction fuel using Nat.strong_induction_on generalizing s with
  | _ fuel ih =>
    cases fuel with
    | zero => omega
    | succ m =>
      rw [combRunF]
      conv_rhs => rw [combRunF]
      cases hnext : combNext s with
      | none => rfl
      | some pr =>
        obtain ⟨kv, s2⟩ := pr
        have hsz := combNext_size hnext
        have h1 : combRunF m s2 = combRunF (combSize s2 + 1) s2 :=
          ih m (by omega) (by omega)
        have h2 : combRunF (combSize s) s2 = combRunF (combSize s2 + 1) s2 :=
          ih (combSize s) (by omega) (by omega)
        dsimp only
        rw [h1, h2]

/-! ### `popK` lemmas -/

theorem popK_eq_self {k : Key} {rems : List (List (Key × Value))}
    (h : ∀ src ∈ rems, ∀ v0 tl, src ≠ (k, v0) :: tl) :
    popK k rems = rems := by
  unfold popK
  have : ∀ src ∈ rems,
      (match src with
       | (k0, v0) :: tl => if k0 = k then tl else (k0, v0) :: tl
       | [] => ([] : List (Key × Value))) = src := by
    intro src hsrc
    cases src with
    | nil => rfl
    | cons p tl =>
      obtain ⟨k0, v0⟩ := p
      simp only
      by_cases hk : k0 = k
      · subst hk
        exact absurd rfl (h _ hsrc v0 tl)
      · rw [if_neg hk]
  calc rems.map _ = rems.map id := List.map_congr_left this
    _ = rems := List.map_id rems

theorem popK_set_tail {k : Key} {rems : List (List (Key × Value))}
    {i : Nat} {v : Value} {tl : List (Key × Value)}
    (hget : rems.get? i = some ((k, v) :: tl))
    (hsort : sortedAll rems) :
    popK k (rems.set i tl) = popK k rems := by
  have hsrc : (k, v) :: tl ∈ rems := List.get?_mem hget
  have hs := hsort _ hsrc
  have htl_gt : ∀ p ∈ tl, keyCmp k p.1 = .lt := entriesSorted_head_lt hs
  unfold popK
  rw [List.map_set]
  refine set_of_get? _ _ _ ?_
  rw [List.get?_map, hget]
  simp only [Option.map_some']
  cases tl with
  | nil => simp
  | cons p tl2 =>
    obtain ⟨k0, v0⟩ := p
    have hlt := htl_gt (k0, v0) (List.mem_cons_self _ _)
    have hne : k0 ≠ k := fun he => (keyCmp_lt_ne hlt) he.symm
    simp [hne]

theorem popK_keys_gt {k : Key} {rems : List (List (Key × Value))}
    (hsort : sortedAll rems)
    (hge : ∀ src ∈ rems, ∀ p ∈ src, keyCmp p.1 k ≠ .lt) :
    ∀ src ∈ popK k rems, ∀ p ∈ src, keyCmp k p.1 = .lt := by
  intro src hsrc p hp
  simp only [popK, List.mem_map] at hsrc
  obtain ⟨src0, hsrc0, heq⟩ := hsrc
  have hs := hsort src0 hsrc0
  have hge0 := hge src0 hsrc0
  cases src0 with
  | nil => cases heq; cases hp
  | cons q tl =>
    obtain ⟨k0, v0⟩ := q
    have hhd_lt := entriesSorted_head_lt hs
    by_cases hk : k0 = k
    · subst hk
      simp only [if_pos rfl] at heq
      subst heq
      exact hhd_lt p hp
    · simp only [if_neg hk] at heq
      subst heq
      have hk0_ge : keyCmp k0 k ≠ .lt := hge0 (k0, v0) (List.mem_cons_self _ _)
      have hk0_gt : keyCmp k k0 = .lt := by
        rcases keyCmp_trichotomy k0 k with h1 | h1 | h1
        · exact absurd h1 hk0_ge
        · exact absurd h1 hk
        · exact h1
      cases hp with
      | head => exact hk0_gt
      | tail _ hp2 =>
        exact keyCmp_lt_trans hk0_gt (hhd_lt p hp2)

theorem sortedAll_set_tail {rems : List (List (Key × Value))}
    {i : Nat} {hd : Key × Value} {tl : List (Key × Value)}
    (hget : rems.get? i = some (hd :: tl)) (hsort : sortedAll rems) :
    sortedAll (rems.set i tl) := by
  intro src hsrc
  rcases List.mem_or_eq_of_mem_set hsrc with h | h
  · exact hsort src h
  · subst h
    have := hsort _ (List.get?_mem hget)
    exact (List.pairwise_cons.mp this).2

theorem keysGe_set_tail {k : Key} {rems : List (List (Key × Value))}
    {i : Nat} {hd : Key × Value} {tl : List (Key × Value)}
    (hget : rems.get? i = some (hd :: tl))
    (hge : ∀ src ∈ rems, ∀ p ∈ src, keyCmp p.1 k ≠ .lt) :
    ∀ src ∈ rems.set i tl, ∀ p ∈ src, keyCmp p.1 k ≠ .lt := by
  intro src hsrc p hp
  rcases List.mem_or_eq_of_mem_set hsrc with h | h
  · exact hge src h p hp
  · subst h
    exact hge _ (List.get?_mem hget) p (List.mem_cons_of_mem _ hp)

/-- The duplicate-skipping loop pops exactly the packs carrying the
emitted key `k`, advancing their sources: the invariant moves from `rems`
to `popK k rems`.  Requires every remaining key to be `≥ k`, which holds
when `k` is the key just popped from the heap. -/
theorem inv_skipDups :
    ∀ (fuel : Nat) (rems : List (List (Key × Value))) (s : CombState) (k : Key),
      combSize s < fuel →
      CombInv rems s →
      sortedAll rems →
      (∀ src ∈ rems, ∀ p ∈ src, keyCmp p.1 k ≠ .lt) →
      CombInv (popK k rems) (skipDupsF fuel k s) := by
  intro fuel
  induction fuel with
  | zero => intro rems s k h _ _ _; omega
  | succ m ih =>
    intro rems s k hfuel hinv hsort hge
    unfold skipDupsF
    cases hpop : heapPopMax s.sorter with
    | none =>
      have hempty : s.sorter = [] := heapPopMax_eq_none_iff.mp hpop
      obtain ⟨hiter, hmem, hpw⟩ := hinv
      have hallnil : ∀ src ∈ rems, src = [] := by
        intro src hsrc
        cases hsrcc : src with
        | nil => rfl
        | cons p tl =>
          obtain ⟨k0, v0⟩ := p
          obtain ⟨i, hi⟩ := List.mem_iff_get?.mp hsrc
          have hpk : (⟨i, k0, v0⟩ : ItemPack) ∈ s.sorter :=
            (hmem _).mpr ⟨tl, by rw [hi, hsrcc]⟩
          rw [hempty] at hpk
          cases hpk
      have hpopk : popK k rems = rems := by
        refine popK_eq_self ?_
        intro src hsrc v0 tl heq
        rw [hallnil src hsrc] at heq
        cases heq
      rw [hpopk]
      exact ⟨hiter, hmem, hpw⟩
    | some pr =>
      obtain ⟨q, rest⟩ := pr
      dsimp only
      by_cases hqk : q.key = k
      · rw [if_pos hqk]
        obtain ⟨tlq, htlq, hinv2, hsize⟩ := inv_pop_advance hinv hpop
        rw [hqk] at htlq
        have hrec := ih (rems.set q.idx tlq)
          (combAdvance { s with sorter := rest } q.idx) k
          (by omega) hinv2 (sortedAll_set_tail htlq hsort)
          (keysGe_set_tail htlq hge)
        rw [popK_set_tail htlq hsort] at hrec
        exact hrec
      · rw [if_neg hqk]
        obtain ⟨hiter, hmem, hpw⟩ := hinv
        obtain ⟨hperm, hmax⟩ := heapPopMax_spec hpop
        -- `q` itself is the head of a remaining source, so `q.key ≥ k`
        have hq_mem : q ∈ s.sorter := hperm.mem_iff.mpr (List.mem_cons_self _ _)
        obtain ⟨tlq, htlq⟩ := (hmem q).mp hq_mem
        have hq_ge : keyCmp q.key k ≠ .lt :=
          hge _ (List.get?_mem htlq) (q.key, q.val) (List.mem_cons_self _ _)
        have hnok : ∀ src ∈ rems, ∀ v0 tl, src ≠ (k, v0) :: tl := by
          intro src hsrc v0 tl heq
          subst heq
          obtain ⟨i, hi⟩ := List.mem_iff_get?.mp hsrc
          have hpk : (⟨i, k, v0⟩ : ItemPack) ∈ s.sorter := (hmem _).mpr ⟨tl, hi⟩
          rcases List.mem_cons.mp (hperm.mem_iff.mp hpk) with h | h
          · exact hqk (by rw [← h])
          · have hx := hmax _ h
            rw [packCmp_not_lt_iff] at hx
            rcases hx with h1 | ⟨h1, _⟩
            · exact hq_ge h1
            · exact hqk h1
        rw [popK_eq_self hnok]
        exact ⟨hiter, hmem, hpw⟩

/-- One `CombineIterator::next` step under the invariant: either everything
is exhausted, or the smallest remaining key `k` is emitted with the value
of the newest source containing `k`, and the state moves to `popK k rems`
(all of whose keys are `> k`). -/
theorem combNext_spec {rems : List (List (Key × Value))} {s : CombState}
    (hinv : CombInv rems s) (hsort : sortedAll rems) :
    (combNext s = none ∧ ∀ src ∈ rems, src = []) ∨
    (∃ k v s2, combNext s = some ((k, v), s2) ∧
      newestVal rems k = some v ∧
      CombInv (popK k rems) s2 ∧
      sortedAll (popK k rems) ∧
      (∀ src ∈ popK k rems, ∀ p ∈ src, keyCmp k p.1 = .lt) ∧
      combSize s2 < combSize s) := by
  obtain ⟨hiter, hmem, hpw⟩ := hinv
  cases hpop : heapPopMax s.sorter with
  | none =>
    left
    have hempty : s.sorter = [] := heapPopMax_eq_none_iff.mp hpop
    constructor
    · unfold combNext
      rw [hpop]
    · intro src hsrc
      cases hsrcc : src with
      | nil => rfl
      | cons p tl =>
        obtain ⟨k0, v0⟩ := p
        obtain ⟨i, hi⟩ := List.mem_iff_get?.mp hsrc
        have hpk : (⟨i, k0, v0⟩ : ItemPack) ∈ s.sorter :=
          (hmem _).mpr ⟨tl, by rw [hi, hsrcc]⟩
        rw [hempty] at hpk
        cases hpk
  | some pr =>
    obtain ⟨q, rest⟩ := pr
    right
    obtain ⟨hperm, hmax⟩ := heapPopMax_spec hpop
    have hsorter_ge : ∀ x : ItemPack, x ∈ s.sorter → keyCmp x.key q.key ≠ .lt := by
      intro x hx
      rcases List.mem_cons.mp (hperm.mem_iff.mp hx) with h | h
      · rw [h]
        exact keyCmp_lt_irrefl _
      · have h2 := hmax x h
        rw [packCmp_not_lt_iff] at h2
        rcases h2 with h1 | ⟨h1, _⟩
        · exact keyCmp_lt_asymm h1
        · rw [← h1]
          exact keyCmp_lt_irrefl _
    have hge : ∀ src ∈ rems, ∀ p ∈ src, keyCmp p.1 q.key ≠ .lt := by
      intro src hsrc p hp
      cases hsrcc : src with
      | nil => rw [hsrcc] at hp; cases hp
      | cons hd tl =>
        obtain ⟨k0, v0⟩ := hd
        obtain ⟨i, hi⟩ := List.mem_iff_get?.mp hsrc
        have hpk : (⟨i, k0, v0⟩ : ItemPack) ∈ s.sorter :=
          (hmem _).mpr ⟨tl, by rw [hi, hsrcc]⟩
        have hk0 : keyCmp k0 q.key ≠ .lt := hsorter_ge _ hpk
        rw [hsrcc] at hp
        cases hp with
        | head => exact hk0
        | tail _ hp2 =>
          have hs2 := hsort src hsrc
          rw [hsrcc] at hs2
          have hlt := entriesSorted_head_lt hs2 p hp2
          intro hplt
          exact hk0 (keyCmp_lt_trans hlt hplt)
    have hmaxidx : ∀ x : ItemPack, x ∈ s.sorter → x.key = q.key → x.idx ≤ q.idx := by
      intro x hx hxk
      rcases List.mem_cons.mp (hperm.mem_iff.mp hx) with h | h
      · rw [h]
      · have h2 := hmax x h
        rw [packCmp_not_lt_iff] at h2
        rcases h2 with h1 | ⟨_, h3⟩
        · rw [hxk] at h1
          exact absurd h1 (keyCmp_lt_irrefl _)
        · exact h3
    obtain ⟨tlq, htlq, hinv2, hsize⟩ := inv_pop_advance ⟨hiter, hmem, hpw⟩ hpop
    have hnv : newestVal rems q.key = some q.val := by
      refine nvFold_last rems q.idx none _ htlq (by simp [mapLookup]) ?_
      intro j src2 hj hget2
      cases hl : mapLookup src2 q.key with
      | none => rfl
      | some v2 =>
        have hsort2 := hsort src2 (List.get?_mem hget2)
        have hge2 := hge src2 (List.get?_mem hget2)
        obtain ⟨tl2, htl2⟩ := contains_imp_head hsort2 hge2 hl
        have hpk2 : (⟨j, q.key, v2⟩ : ItemPack) ∈ s.sorter :=
          (hmem _).mpr ⟨tl2, by rw [hget2, htl2]⟩
        have hle := hmaxidx _ hpk2 rfl
        simp only at hle
        omega
    have hskip := inv_skipDups
      (combSize (combAdvance { s with sorter := rest } q.idx) + 1)
      (rems.set q.idx tlq) (combAdvance { s with sorter := rest } q.idx) q.key
      (by omega) hinv2 (sortedAll_set_tail htlq hsort)
      (keysGe_set_tail htlq hge)
    rw [popK_set_tail htlq hsort] at hskip
    refine ⟨q.key, q.val,
      skipDupsF (combSize (combAdvance { s with sorter := rest } q.idx) + 1)
        q.key (combAdvance { s with sorter := rest } q.idx),
      ?_, hnv, hskip, sortedAll_popK hsort, popK_keys_gt hsort hge, ?_⟩
    · unfold combNext
      rw [hpop]
    · have := skipDupsF_size
        (combSize (combAdvance { s with sorter := rest } q.idx) + 1) q.key
        (combAdvance { s with sorter := rest } q.idx)
      omega

theorem nvFold_some_exists {k : Key} :
    ∀ (srcs : List (List (Key × Value))) (acc : Option Value) (v : Value),
      srcs.foldl
        (fun acc src =>
          match mapLookup src k with
          | some v => some v
          | none => acc) acc = some v →
      (∃ s ∈ srcs, mapLookup s k = some v) ∨ acc = some v := by
  intro srcs
  induction srcs with
  | nil => intro acc v h; exact Or.inr h
  | cons s tl ih =>
    intro acc v h
    simp only [List.foldl_cons] at h
    rcases ih _ v h with ⟨s2, hs2, hl⟩ | hacc
    · exact Or.inl ⟨s2, List.mem_cons_of_mem _ hs2, hl⟩
    · cases hl0 : mapLookup s k with
      | none =>
        simp only [hl0] at hacc
        exact Or.inr hacc
      | some v0 =>
        simp only [hl0] at hacc
        exact Or.inl ⟨s, List.mem_cons_self _ _, by rw [hl0, hacc]⟩

theorem newestVal_some_exists {srcs : List (List (Key × Value))}
    {k : Key} {v : Value} (h : newestVal srcs k = some v) :
    ∃ s ∈ srcs, mapLookup s k = some v := by
  rcases nvFold_some_exists srcs none v h with h2 | h2
  · exact h2
  · cases h2

theorem newestVal_none_of_gt {k : Key} {srcs : List (List (Key × Value))}
    (h : ∀ src ∈ srcs, ∀ p ∈ src, keyCmp k p.1 = .lt) :
    newestVal srcs k = none := by
  refine nvFold_none srcs none ?_
  intro s hs
  cases hl : mapLookup s k with
  | none => rfl
  | some v =>
    have hmem := mapLookup_some_mem hl
    exact absurd (h s hs (k, v) hmem) (keyCmp_lt_irrefl k)

theorem newestVal_popK_ne {k k2 : Key} {rems : List (List (Key × Value))}
    (hne : k2 ≠ k) :
    newestVal (popK k rems) k2 = newestVal rems k2 := by
  refine newestVal_eq_of_lookup_eq (by simp [popK]) ?_
  intro i s1 s2 h1 h2
  unfold popK at h1
  rw [List.get?_map, h2] at h1
  simp only [Option.map_some', Option.some.injEq] at h1
  subst h1
  cases s2 with
  | nil => rfl
  | cons p tl =>
    obtain ⟨k0, v0⟩ := p
    by_cases hk : k0 = k
    · subst hk
      simp only [if_pos rfl]
      have hk2 : k2 ≠ k0 := hne
      simp [mapLookup, hk2]
    · simp only [if_neg hk]

/-- The main run invariant: from any state satisfying the invariant, the
remaining merged output is strictly key-sorted and contains exactly the
pairs `(k, newest value of k)` over the remaining sources. -/
theorem combRunF_spec :
    ∀ (n : Nat) (s : CombState) (rems : List (List (Key × Value))),
      combSize s ≤ n → CombInv rems s → sortedAll rems →
      ((combRunF (combSize s + 1) s).Pairwise
          (fun p q => keyCmp p.1 q.1 = .lt) ∧
        ∀ k v, ((k, v) ∈ combRunF (combSize s + 1) s ↔
          newestVal rems k = some v)) := by
  intro n
  induction n using Nat.strong_induction_on with
  | _ n ih =>
    intro s rems hn hinv hsort
    rcases combNext_spec hinv hsort with ⟨hnone, hallnil⟩ |
      ⟨k, vk, s2, hnext, hnv, hinv2, hsort2, hgt2, hsz⟩
    · have hout : combRunF (combSize s + 1) s = [] := by
        rw [combRunF, hnone]
      rw [hout]
      refine ⟨List.Pairwise.nil, ?_⟩
      intro k v
      simp only [List.not_mem_nil, false_iff]
      intro hcontra
      obtain ⟨ssome, hmem2, hlook⟩ := newestVal_some_exists hcontra
      rw [hallnil ssome hmem2] at hlook
      simp [mapLookup] at hlook
    · have hout : combRunF (combSize s + 1) s =
          (k, vk) :: combRunF (combSize s) s2 := by
        rw [combRunF, hnext]
      have hfuel2 : combRunF (combSize s) s2 = combRunF (combSize s2 + 1) s2 :=
        combRunF_fuel (by omega)
      obtain ⟨hpw2, hmem2⟩ :=
        ih (combSize s2) (by omega) s2 (popK k rems) (Nat.le_refl _) hinv2 hsort2
      rw [hout, hfuel2]
      constructor
      · refine List.Pairwise.cons ?_ hpw2
        intro p hp
        obtain ⟨k2, v2⟩ := p
        have hnv2 := (hmem2 k2 v2).mp hp
        obtain ⟨src, hsrc, hlook⟩ := newestVal_some_exists hnv2
        exact hgt2 src hsrc (k2, v2) (mapLookup_some_mem hlook)
      · intro k2 v2
        rw [List.mem_cons]
        by_cases hk2 : k2 = k
        · subst hk2
          constructor
          · intro h
            rcases h with h | h
            · simp only [Prod.mk.injEq] at h
              rw [hnv, h.2]
            · have hsome := (hmem2 k2 v2).mp h
              have hnone2 : newestVal (popK k2 rems) k2 = none :=
                newestVal_none_of_gt hgt2
              rw [hnone2] at hsome
              cases hsome
          · intro h
            rw [hnv] at h
            injection h with h2
            left
            simp only [Prod.mk.injEq, true_and]
            exact h2.symm
        · rw [hmem2 k2 v2, newestVal_popK_ne hk2]
          constructor
          · rintro (h | h)
            · simp only [Prod.mk.injEq] at h
              exact absurd h.1 hk2
            · exact h
          · intro h
            exact Or.inr h

/-- Correctness of the merging iterator on strictly-sorted error-free
sources: the merged stream is strictly key-ascending and holds exactly
the keys of the union, each paired with the newest source value. -/
theorem combRun_correct (sources : List (List (Key × Value)))
    (hs : ∀ src ∈ sources, entriesSorted src) :
    (combRun sources).Pairwise (fun p q => keyCmp p.1 q.1 = .lt) ∧
    ∀ k v, ((k, v) ∈ combRun sources ↔ newestVal sources k = some v) :=
  combRunF_spec (combSize (combInit sources)) (combInit sources) sources
    (Nat.le_refl _) (combInit_inv sources) hs

/-! ## Engine facade (`lib.rs`)

The two `SkipSet`s are embedded as lists kept in the set's iteration
order, which is ascending under the respective `Ord` implementations
(ascending memtable id, ascending SSTable id).  `SkipSet::front()` is the
minimum, i.e. the head of the list.  -/

/-- `SkipSet::front()`: the least element; the model keeps sets in
ascending order, so this is the head. -/
def skipSetFront {α : Type} (l : List α) : Option α := l.head?

/-- The engine state: the shared memtable and SSTable sets. -/
structure LiteDbM where
  mem_tables : List MemTableM
  ss_tables : List SSTableModel

/-- `LiteDb::set`: route the write to `mem_tables.front()`.  The source
panics (`.expect`) on an empty set, modelled as `none`. -/
def liteDbSet (st : LiteDbM) (k : Key) (v : Value) : Option LiteDbM :=
  match st.mem_tables with
  | [] => none
  | mt :: rest => some { st with mem_tables := memSet mt k v :: rest }

/-- `LiteDb::delete` is `set(k, TOMBSTONE)`. -/
def liteDbDelete (st : LiteDbM) (k : Key) : Option LiteDbM :=
  liteDbSet st k TOMBSTONE

/-- `LiteDb::apply_batch`: route to `mem_tables.front()`. -/
def liteDbApplyBatch (st : LiteDbM) (ops : List (Key × Value)) : Option LiteDbM :=
  match st.mem_tables with
  | [] => none
  | mt :: rest => some { st with mem_tables := memApplyBatch mt ops :: rest }

/-- The SSTable probe loop of `LiteDb::get`: tables are visited in the
set's ascending-id order; `if let Ok(Some(value))` discards both
`Ok(None)` and `Err(_)` results and falls through to the next table. -/
def probeSS : List SSTableModel → Key → Option Value
  | [], _ => none
  | t :: ts, k =>
    match ssTableGet t k with
    | .ok (some v) => if v = TOMBSTONE then none else some v
    | _ => probeSS ts k

/-- `LiteDb::get`: consult `mem_tables.front()` only, then the SSTables
whose Bloom filter does not exclude the key, in the set's iteration order.  The
overall result is never an error (`Ok(None)` on fall-through). -/
def liteDbGet (st : LiteDbM) (k : Key) : Option Value :=
  match skipSetFront st.mem_tables with
  | none => none
  | some mt =>
    match memGet mt k with
    | some v => if v = TOMBSTONE then none else some v
    | none => probeSS (st.ss_tables.filter (fun t => t.bloom k)) k

/-- `LiteDb::scan`: one iterator per source, SSTables first then
memtables, each set in ascending-id order, fed to the merging iterator. -/
def liteDbScan (st : LiteDbM) (lo hi : Option Key) : List (Key × Value) :=
  combRun (st.ss_tables.map (fun t => sstScanList t lo hi) ++
    st.mem_tables.map (fun mt => memScanList mt lo hi))

/-! ## Controller and compactor (`controller.rs`, `compactor.rs`) -/

/-- The memtable the controller observes each tick: `mem_tables.front()`. -/
def controllerObserved (memTables : List MemTableM) : Option MemTableM :=
  skipSetFront memTables

/-- `SizeTieredCompactor::evaluate`: the source always returns an empty
vector of merge groups. -/
def sizeTieredCompactorEvaluate (_ssTables : List SSTableModel) :
    List (List SSTableModel) :=
  []

/-- `compactor::do_compaction`: the source is a stub returning two empty
sets regardless of its input. -/
def doCompaction (_groups : List (List SSTableModel)) :
    List SSTableModel × List SSTableModel :=
  ([], [])

/-- One tick of `Compactor::start`: snapshot, evaluate, and if any groups
were returned, perform the (stub) compaction and publish the swap under
the atomic executor.  Removal is by the set's `Ord` (the table id). -/
def compactorTick (ssTables : List SSTableModel) : List SSTableModel :=
  let candidates := ssTables
  let groups := sizeTieredCompactorEvaluate candidates
  if groups.isEmpty then ssTables
  else
    let (newTables, oldTables) := doCompaction groups
    (ssTables.filter (fun t =>
      oldTables.all (fun o => o.metadata.id ≠ t.metadata.id))) ++ newTables

/-! ## Sequential operation runs (for the read-your-writes properties)

A freshly opened engine in a directory that did not exist: a single empty
memtable with id 0 and no SSTables.  Foreground operations are applied
sequentially; the background workers tick on timers and are not part of a
sequential run.  -/

/-- A foreground write operation.  A batch carries the `(Key, Value)`
pairs of a `BatchOperations` (its `delete` pushes the tombstone). -/
inductive DbOp where
  | setOp (k : Key) (v : Value)
  | delOp (k : Key)
  | batchOp (ops : List (Key × Value))

/-- The engine state right after `open` on a fresh directory. -/
def freshState : LiteDbM :=
  { mem_tables := [⟨0, [], 0⟩], ss_tables := [] }

/-- Apply one foreground operation. -/
def applyOp (st : LiteDbM) : DbOp → Option LiteDbM
  | .setOp k v => liteDbSet st k v
  | .delOp k => liteDbDelete st k
  | .batchOp ops => liteDbApplyBatch st ops

/-- Apply a sequence of operations to a freshly opened engine. -/
def applyOps (ops : List DbOp) : Option LiteDbM :=
  ops.foldl (fun acc op => acc.bind (fun st => applyOp st op)) (some freshState)

/-- Specification-side: the `(Key, Value)` records an operation writes. -/
def opWrites : DbOp → List (Key × Value)
  | .setOp k v => [(k, v)]
  | .delOp k => [(k, TOMBSTONE)]
  | .batchOp ops => ops

/-- Specification-side: all records written by a run, in order. -/
def writesOf (ops : List DbOp) : List (Key × Value) :=
  (ops.map opWrites).flatten

/-- Specification-side: the value of the most recent write to `k`. -/
def lastWrite (ops : List DbOp) (k : Key) : Option Value :=
  (writesOf ops).foldl (fun acc p => if p.1 = k then some p.2 else acc) none

/-! ### Map insert lemmas -/

theorem mapInsert_mem {l : List (Key × Value)} {k : Key} {v : Value} :
    ∀ p ∈ mapInsert l k v, p = (k, v) ∨ p ∈ l := by
  induction l with
  | nil => intro p hp; simp [mapInsert] at hp; simp [hp]
  | cons hd tl ih =>
    obtain ⟨k0, v0⟩ := hd
    intro p hp
    simp only [mapInsert] at hp
    cases hc : keyCmp k k0 with
    | lt =>
      rw [hc] at hp
      rcases List.mem_cons.mp hp with h | h
      · exact Or.inl h
      · exact Or.inr h
    | eq =>
      rw [hc] at hp
      rcases List.mem_cons.mp hp with h | h
      · exact Or.inl h
      · exact Or.inr (List.mem_cons_of_mem _ h)
    | gt =>
      rw [hc] at hp
      rcases List.mem_cons.mp hp with h | h
      · exact Or.inr (by rw [h]; exact List.mem_cons_self _ _)
      · rcases ih p h with h2 | h2
        · exact Or.inl h2
        · exact Or.inr (List.mem_cons_of_mem _ h2)

theorem mapInsert_sorted {l : List (Key × Value)} {k : Key} {v : Value}
    (h : entriesSorted l) : entriesSorted (mapInsert l k v) := by
  induction l with
  | nil => simp [mapInsert, entriesSorted]
  | cons hd tl ih =>
    obtain ⟨k0, v0⟩ := hd
    obtain ⟨hhd, htl⟩ := List.pairwise_cons.mp h
    simp only [mapInsert]
    cases hc : keyCmp k k0 with
    | lt =>
      refine List.Pairwise.cons ?_ h
      intro p hp
      rcases List.mem_cons.mp hp with h2 | h2
      · rw [h2]
        exact hc
      · exact keyCmp_lt_trans hc (hhd p h2)
    | eq =>
      have hk : k = k0 := keyCmp_eq_iff.mp hc
      refine List.Pairwise.cons ?_ htl
      intro p hp
      rw [hk]
      exact hhd p hp
    | gt =>
      refine List.Pairwise.cons ?_ (ih htl)
      intro p hp
      rcases mapInsert_mem p hp with h2 | h2
      · rw [h2]
        exact keyCmp_lt_iff_gt.mpr hc
      · exact hhd p h2

theorem mapLookup_mapInsert_self {l : List (Key × Value)} {k : Key} {v : Value} :
    mapLookup (mapInsert l k v) k = some v := by
  induction l with
  | nil => simp [mapInsert, mapLookup]
  | cons hd tl ih =>
    obtain ⟨k0, v0⟩ := hd
    simp only [mapInsert]
    cases hc : keyCmp k k0 with
    | lt => simp [mapLookup]
    | eq => simp [mapLookup]
    | gt =>
      have hne : k ≠ k0 := fun he => by
        rw [he] at hc
        rw [keyCmp_refl] at hc
        cases hc
      simp [mapLookup, hne, ih]

theorem mapLookup_mapInsert_ne {l : List (Key × Value)} {k k2 : Key} {v : Value}
    (hne : k2 ≠ k) : mapLookup (mapInsert l k v) k2 = mapLookup l k2 := by
  induction l with
  | nil => simp [mapInsert, mapLookup, hne]
  | cons hd tl ih =>
    obtain ⟨k0, v0⟩ := hd
    simp only [mapInsert]
    cases hc : keyCmp k k0 with
    | lt => simp [mapLookup, hne]
    | eq =>
      have hk : k = k0 := keyCmp_eq_iff.mp hc
      subst hk
      simp [mapLookup, hne]
    | gt =>
      by_cases h0 : k2 = k0
      · subst h0
        simp [mapLookup]
      · simp [mapLookup, h0, ih]

theorem lookup_insert_fold :
    ∀ (pairs : List (Key × Value)) (l : List (Key × Value)) (k : Key),
      mapLookup (pairs.foldl (fun m p => mapInsert m p.1 p.2) l) k =
        pairs.foldl (fun acc p => if p.1 = k then some p.2 else acc)
          (mapLookup l k) := by
  intro pairs
  induction pairs with
  | nil => intro l k; rfl
  | cons p0 tl ih =>
    intro l k
    obtain ⟨k0, v0⟩ := p0
    simp only [List.foldl_cons]
    rw [ih]
    by_cases hk : k0 = k
    · subst hk
      rw [if_pos rfl, mapLookup_mapInsert_self]
    · rw [if_neg hk, mapLookup_mapInsert_ne (fun he => hk he.symm)]

theorem sorted_insert_fold :
    ∀ (pairs : List (Key × Value)) (l : List (Key × Value)),
      entriesSorted l →
      entriesSorted (pairs.foldl (fun m p => mapInsert m p.1 p.2) l) := by
  intro pairs
  induction pairs with
  | nil => intro l h; exact h
  | cons p0 tl ih =>
    intro l h
    exact ih _ (mapInsert_sorted h)

/-! ### A sequential run keeps a single sorted memtable whose map is the
last write per key -/

theorem applyOps_ok :
    ∀ ops : List DbOp, ∃ mt : MemTableM,
      applyOps ops = some { mem_tables := [mt], ss_tables := [] } ∧
      entriesSorted mt.entries ∧
      ∀ k, mapLookup mt.entries k = lastWrite ops k := by
  intro ops
  induction ops using List.reverseRecOn with
  | nil =>
    refine ⟨⟨0, [], 0⟩, rfl, List.Pairwise.nil, ?_⟩
    intro k
    rfl
  | append_singleton ops op ih =>
    obtain ⟨mt, hrun, hsort, hlook⟩ := ih
    have happ : applyOps (ops ++ [op]) =
        (applyOps ops).bind (fun st => applyOp st op) := by
      unfold applyOps
      rw [List.foldl_append]
      rfl
    have hlast : ∀ k, lastWrite (ops ++ [op]) k =
        (opWrites op).foldl (fun acc p => if p.1 = k then some p.2 else acc)
          (lastWrite ops k) := by
      intro k
      unfold lastWrite writesOf
      simp [List.foldl_append]
    cases op with
    | setOp k0 v0 =>
      refine ⟨memSet mt k0 v0, ?_, mapInsert_sorted hsort, ?_⟩
      · rw [happ, hrun]
        rfl
      · intro k
        rw [hlast k]
        show mapLookup (mapInsert mt.entries k0 v0) k = _
        simp only [opWrites, List.foldl_cons, List.foldl_nil]
        by_cases hk : k0 = k
        · subst hk
          rw [if_pos rfl, mapLookup_mapInsert_self]
        · rw [if_neg hk, mapLookup_mapInsert_ne (fun he => hk he.symm), hlook k]
    | delOp k0 =>
      refine ⟨memSet mt k0 TOMBSTONE, ?_, mapInsert_sorted hsort, ?_⟩
      · rw [happ, hrun]
        rfl
      · intro k
        rw [hlast k]
        show mapLookup (mapInsert mt.entries k0 TOMBSTONE) k = _
        simp only [opWrites, List.foldl_cons, List.foldl_nil]
        by_cases hk : k0 = k
        · subst hk
          rw [if_pos rfl, mapLookup_mapInsert_self]
        · rw [if_neg hk, mapLookup_mapInsert_ne (fun he => hk he.symm), hlook k]
    | batchOp bops =>
      refine ⟨memApplyBatch mt bops, ?_, sorted_insert_fold bops _ hsort, ?_⟩
      · rw [happ, hrun]
        rfl
      · intro k
        rw [hlast k]
        show mapLookup (bops.foldl (fun m p => mapInsert m p.1 p.2) mt.entries) k = _
        rw [lookup_insert_fold, hlook k]
        rfl

/-- The point-read of a sequential run: `get` resolves the last write,
mapping the tombstone to `None`. -/
theorem liteDbGet_run {ops : List DbOp} {st : LiteDbM} {k : Key}
    (h : applyOps ops = some st) :
    liteDbGet st k =
      match lastWrite ops k with
      | some v => if v = TOMBSTONE then none else some v
      | none => none := by
  obtain ⟨mt, hrun, hsort, hlook⟩ := applyOps_ok ops
  rw [h] at hrun
  have hst : st = { mem_tables := [mt], ss_tables := [] } :=
    Option.some.inj hrun
  subst hst
  show (match memGet mt k with
    | some v => if v = TOMBSTONE then none else some v
    | none => probeSS ([].filter fun t => t.bloom k) k) = _
  rw [show memGet mt k = lastWrite ops k from hlook k]
  cases lastWrite ops k with
  | none => rfl
  | some v => rfl

theorem newestVal_singleton {src : List (Key × Value)} {k : Key} :
    newestVal [src] k =
      match mapLookup src k with
      | some v => some v
      | none => none := rfl

theorem mapLookup_filter_key :
    ∀ (l : List (Key × Value)) (f : Key → Bool) (k : Key),
      mapLookup (l.filter (fun p => f p.1)) k =
        if f k then mapLookup l k else none := by
  intro l f k
  induction l with
  | nil => simp [mapLookup]
  | cons hd tl ih =>
    obtain ⟨k0, v0⟩ := hd
    by_cases hk : k = k0
    · subst hk
      cases hf : f k with
      | true => simp [List.filter_cons, hf, mapLookup]
      | false => simpa [List.filter_cons, hf, mapLookup] using ih
    · cases hf : f k0 with
      | true => simpa [List.filter_cons, hf, mapLookup, hk] using ih
      | false => simpa [List.filter_cons, hf, mapLookup, hk] using ih

theorem wfold_no_k {k : Key} :
    ∀ (pairs : List (Key × Value)) (acc : Option Value),
      (∀ p ∈ pairs, p.1 ≠ k) →
      pairs.foldl (fun acc p => if p.1 = k then some p.2 else acc) acc = acc := by
  intro pairs
  induction pairs with
  | nil => intro acc _; rfl
  | cons p0 tl ih =>
    intro acc h
    simp only [List.foldl_cons, if_neg (h p0 (List.mem_cons_self _ _))]
    exact ih acc (fun p hp => h p (List.mem_cons_of_mem _ hp))

theorem lastWrite_middle {ops1 ops2 : List DbOp} {op : DbOp} {k : Key}
    (hnw : ∀ p ∈ writesOf ops2, p.1 ≠ k) :
    lastWrite (ops1 ++ op :: ops2) k =
      (opWrites op).foldl (fun acc p => if p.1 = k then some p.2 else acc)
        (lastWrite ops1 k) := by
  unfold lastWrite writesOf
  simp only [List.map_append, List.map_cons, List.flatten_append,
    List.flatten_cons, List.foldl_append]
  exact wfold_no_k _ _ (by
    intro p hp
    exact hnw p hp)

/-- C3: For every vector of error-free source iterators in ascending-age
order (index 0 oldest), each strictly sorted by key, the merging iterator
`CombineIterator` emits the union of keys in strictly ascending order,
each key exactly once, paired with the value from the highest-index
(newest) source containing it. -/
theorem combineIterator_newest_wins (sources : List (List (Key × Value)))
    (hs : ∀ src ∈ sources, entriesSorted src) :
    (combRun sources).Pairwise (fun p q => keyCmp p.1 q.1 = .lt) ∧
    ∀ k v, ((k, v) ∈ combRun sources ↔ newestVal sources k = some v) :=
  combRun_correct sources hs

/-- Witness for C3 at the concrete instance of the claim: sources
old = [(a,1),(b,2)] and new = [(a,10),(c,3)] (a,b,c = bytes 97,98,99)
produce [(a,10),(b,2),(c,3)]. -/
theorem combineIterator_newest_wins_witness :
    (∀ src ∈ [[(([97] : Key), ([1] : Value)), ([98], [2])],
        [([97], [10]), ([99], [3])]], entriesSorted src) ∧
    ((combRun [[(([97] : Key), ([1] : Value)), ([98], [2])],
        [([97], [10]), ([99], [3])]]).Pairwise
        (fun p q => keyCmp p.1 q.1 = .lt) ∧
      ∀ k v, ((k, v) ∈ combRun [[(([97] : Key), ([1] : Value)), ([98], [2])],
        [([97], [10]), ([99], [3])]] ↔
        newestVal [[(([97] : Key), ([1] : Value)), ([98], [2])],
          [([97], [10]), ([99], [3])]] k = some v)) ∧
    combRun [[(([97] : Key), ([1] : Value)), ([98], [2])],
        [([97], [10]), ([99], [3])]] =
      [([97], [10]), ([98], [2]), ([99], [3])] :=
  ⟨by decide, combineIterator_newest_wins _ (by decide), by decide⟩

/-- C4 (amended): in a sequential run on a fresh engine, after
`set(k, v)` with `v` not the tombstone, `get(k)` returns `Some(v)` as
long as no later operation writes `k`; after `delete(k)` (and likewise
after `set(k, tombstone)`), `get(k)` returns `None` as long as no later
operation writes `k`. -/
theorem readYourWrites (ops1 ops2 : List DbOp) (k : Key)
    (hnw : ∀ p ∈ writesOf ops2, p.1 ≠ k) :
    (∀ (v : Value) (st : LiteDbM), v ≠ TOMBSTONE →
      applyOps (ops1 ++ DbOp.setOp k v :: ops2) = some st →
      liteDbGet st k = some v) ∧
    (∀ st : LiteDbM,
      applyOps (ops1 ++ DbOp.delOp k :: ops2) = some st →
      liteDbGet st k = none) := by
  constructor
  · intro v st hv hrun
    rw [liteDbGet_run hrun, lastWrite_middle hnw]
    simp [opWrites, hv]
  · intro st hrun
    rw [liteDbGet_run hrun, lastWrite_middle hnw]
    simp [opWrites, TOMBSTONE]

/-- Counterexample to C4 as stated: `set(k, v)` with `v` the (empty)
tombstone value is a deletion, so `get(k)` returns `None`, not
`Some(v)`. -/
theorem readYourWrites_counterexample :
    (applyOps [DbOp.setOp [1] []]).map (fun st => liteDbGet st [1]) =
      some none ∧
    some (none : Option Value) ≠ some (some ([] : Value)) := by
  constructor
  · rfl
  · decide

/-- Witness for C4 (amended) at a concrete run: a later write to a
different key does not supersede `k`. -/
theorem readYourWrites_witness :
    (∀ p ∈ writesOf [DbOp.setOp [2] [9]], p.1 ≠ ([1] : Key)) ∧
    liteDbGet ⟨[⟨0, [([1], [7]), ([2], [9])], 4⟩], []⟩ [1] = some [7] ∧
    liteDbGet ⟨[⟨0, [([1], []), ([2], [9])], 3⟩], []⟩ [1] = none :=
  ⟨by decide,
    (readYourWrites [] [DbOp.setOp [2] [9]] [1] (by decide)).1 [7]
      ⟨[⟨0, [([1], [7]), ([2], [9])], 4⟩], []⟩ (by decide) (by rfl),
    (readYourWrites [] [DbOp.setOp [2] [9]] [1] (by decide)).2
      ⟨[⟨0, [([1], []), ([2], [9])], 3⟩], []⟩ (by rfl)⟩

/-- C5 (amended): on a sequential run, `scan(lo, hi)` yields, in strictly
ascending key order and each key at most once, exactly the keys written
by the run that lie in `[lo, hi)`, each with the value of its newest
write — tombstoned keys included (the facade does not filter deletions;
that is left to the consumer). -/
theorem scanYieldsRange (ops : List DbOp) (st : LiteDbM)
    (lo hi : Option Key) (h : applyOps ops = some st) :
    (liteDbScan st lo hi).Pairwise (fun p q => keyCmp p.1 q.1 = .lt) ∧
    ∀ k v, ((k, v) ∈ liteDbScan st lo hi ↔
      (lastWrite ops k = some v ∧ inRangeB lo hi k = true)) := by
  obtain ⟨mt, hrun, hsort, hlook⟩ := applyOps_ok ops
  rw [h] at hrun
  have hst : st = { mem_tables := [mt], ss_tables := [] } :=
    Option.some.inj hrun
  subst hst
  have hscan : liteDbScan { mem_tables := [mt], ss_tables := [] } lo hi =
      combRun [memScanList mt lo hi] := rfl
  have hsorted2 : entriesSorted (memScanList mt lo hi) :=
    List.Pairwise.filter _ hsort
  obtain ⟨hpw, hmem⟩ := combRun_correct [memScanList mt lo hi] (by
    intro src hsrc
    rw [List.mem_singleton] at hsrc
    rw [hsrc]
    exact hsorted2)
  rw [hscan]
  refine ⟨hpw, ?_⟩
  intro k v
  rw [hmem k v, newestVal_singleton]
  show (match mapLookup (mt.entries.filter fun p => inRangeB lo hi p.1) k with
    | some v => some v
    | none => none) = some v ↔ _
  rw [mapLookup_filter_key, hlook k]
  by_cases hr : inRangeB lo hi k = true
  · rw [if_pos hr]
    cases lastWrite ops k with
    | none => simp [hr]
    | some v2 => simp [hr]
  · rw [if_neg hr]
    simp only [Bool.not_eq_true] at hr
    simp [hr]

/-- Counterexample to C5 as stated: after `set` then `delete` of the same
key, the engine scan still yields the deleted key (with the tombstone
value); it does not yield only live keys. -/
theorem scanYieldsRange_counterexample :
    (applyOps [DbOp.setOp [1] [7], DbOp.delOp [1]]).map
      (fun st => liteDbScan st none none) = some [([1], [])] ∧
    some [(([1] : Key), ([] : Value))] ≠ some ([] : List (Key × Value)) := by
  constructor
  · rfl
  · decide

/-- Witness for C5 (amended): a two-key run scanned over `[[1], [2])`
yields exactly key [1]. -/
theorem scanYieldsRange_witness :
    applyOps [DbOp.setOp [1] [7], DbOp.setOp [2] [9]] =
      some ⟨[⟨0, [([1], [7]), ([2], [9])], 4⟩], []⟩ ∧
    ((liteDbScan ⟨[⟨0, [([1], [7]), ([2], [9])], 4⟩], []⟩
        (some [1]) (some [2])).Pairwise (fun p q => keyCmp p.1 q.1 = .lt) ∧
      ∀ k v, ((k, v) ∈ liteDbScan ⟨[⟨0, [([1], [7]), ([2], [9])], 4⟩], []⟩
          (some [1]) (some [2]) ↔
        (lastWrite [DbOp.setOp [1] [7], DbOp.setOp [2] [9]] k = some v ∧
          inRangeB (some [1]) (some [2]) k = true))) :=
  ⟨by rfl,
    scanYieldsRange [DbOp.setOp [1] [7], DbOp.setOp [2] [9]]
      ⟨[⟨0, [([1], [7]), ([2], [9])], 4⟩], []⟩ (some [1]) (some [2]) (by rfl)⟩

instance exceptDecidableEq {e a : Type} [DecidableEq e] [DecidableEq a] :
    DecidableEq (Except e a) := fun x y =>
  match x, y with
  | .error e1, .error e2 =>
    if h : e1 = e2 then isTrue (by rw [h])
    else isFalse (by intro hc; cases hc; exact h rfl)
  | .error _, .ok _ => isFalse (by intro hc; cases hc)
  | .ok _, .error _ => isFalse (by intro hc; cases hc)
  | .ok v1, .ok v2 =>
    if h : v1 = v2 then isTrue (by rw [h])
    else isFalse (by intro hc; cases hc; exact h rfl)

/-- C2 (code evidence): with memtables of ids 0 and 1 present, the
ascending-id `Ord` makes `mem_tables.front()` the id-0 (lowest-id,
oldest) entry, so `set` and `apply_batch` route the write to id 0 and
the controller's maturity check observes id 0 — not the highest id 1
that the spec calls the current memtable. -/
theorem writesRouteToLowestId :
    (skipSetFront [(⟨0, [], 0⟩ : MemTableM), ⟨1, [], 0⟩]).map MemTableM.id =
      some 0 ∧
    (controllerObserved [(⟨0, [], 0⟩ : MemTableM), ⟨1, [], 0⟩]).map
      MemTableM.id = some 0 ∧
    (liteDbSet ⟨[⟨0, [], 0⟩, ⟨1, [], 0⟩], []⟩ [7] [8]).map
      (fun st => st.mem_tables.map (fun mt => (mt.id, mt.entries))) =
      some [(0, [([7], [8])]), (1, [])] ∧
    (liteDbApplyBatch ⟨[⟨0, [], 0⟩, ⟨1, [], 0⟩], []⟩ [([7], [8])]).map
      (fun st => st.mem_tables.map (fun mt => (mt.id, mt.entries))) =
      some [(0, [([7], [8])]), (1, [])] ∧
    (0 : Nat) ≠ 1 :=
  ⟨by decide, by decide, by decide, by decide, by decide⟩

/-- C1 (code evidence): `LiteDb::get` consults only `mem_tables.front()`
(the lowest id) and probes the SSTables in the `SkipSet`'s ascending-id
(oldest-first) order, so with two sources both holding the key it
returns the OLDEST value [1], not the newest [2] that the spec
requires. -/
theorem getProbesOldestFirst :
    liteDbGet ⟨[⟨0, [([5], [1])], 2⟩, ⟨1, [([5], [2])], 2⟩], []⟩ [5] =
      some [1] ∧
    ((saveModel ⟨1, [([5], [1])], 2⟩ 4).bind (fun t1 =>
      (saveModel ⟨2, [([5], [2])], 2⟩ 4).map (fun t2 =>
        liteDbGet ⟨[⟨0, [], 0⟩], [t1, t2]⟩ [5]))) = some (some [1]) ∧
    ([1] : Value) ≠ [2] :=
  ⟨by decide, by decide, by decide⟩

/-- C8 (code evidence): `SSTable::get` over a table whose data region
fails to decode returns the decoding error, but `LiteDb::get` matches
with `if let Ok(Some(..))`, discarding the error and answering
`Ok(None)`. -/
theorem corruptSSTableErrorSwallowed :
    ssTableGet
      ⟨⟨1, ([5], 0), ([5], 10), 0, 1⟩, [7], [([5], 0), ([5], 10)],
        fun _ => true⟩ [5] = .error () ∧
    liteDbGet
      ⟨[⟨0, [], 0⟩],
        [⟨⟨1, ([5], 0), ([5], 10), 0, 1⟩, [7], [([5], 0), ([5], 10)],
          fun _ => true⟩]⟩ [5] = none :=
  ⟨by decide, by decide⟩

/-- C9: on every compactor tick the SSTable set is snapshotted and the
policy consulted, but `SizeTieredCompactor::evaluate` always returns the
empty vector of merge groups and `do_compaction` is a stub returning two
empty sets, so no merge is ever performed and the set is unchanged. -/
theorem compactorIsStub :
    (∀ tables : List SSTableModel, sizeTieredCompactorEvaluate tables = []) ∧
    (∀ groups : List (List SSTableModel), doCompaction groups = ([], [])) ∧
    (∀ tables : List SSTableModel, compactorTick tables = tables) :=
  ⟨fun _ => rfl, fun _ => rfl, fun _ => rfl⟩

/-- C10: `MemTable::open` replays the WAL into the map but initializes
`size_bytes` to 0 regardless of what was recovered; consequently, right
after recovery, `is_full` can fire only through the entry count (for any
positive byte threshold), and an SSTable saved from a
recovered-but-unwritten memtable records `total_size = 0`. -/
theorem recoveredSizeBytesZero :
    ∀ (id : Nat) (bs : List Nat) (mt : MemTableM),
      memTableOpen id bs = .ok mt →
      mt.size_bytes = 0 ∧
      (∀ maxEntries maxSizeBytes : Nat, 0 < maxSizeBytes →
        memIsFull mt maxEntries maxSizeBytes =
          decide (maxEntries ≤ mt.entries.length)) ∧
      (∀ sparse t, saveModel mt sparse = some t →
        t.metadata.total_size = 0) := by
  intro id bs mt h
  unfold memTableOpen at h
  cases hrun : walRun bs with
  | error e =>
    rw [hrun] at h
    cases h
  | ok items =>
    rw [hrun] at h
    simp only [Except.map] at h
    cases h
    refine ⟨rfl, ?_, ?_⟩
    · intro me ms hms
      unfold memIsFull
      have h0 : ¬ (ms ≤ 0) := by omega
      simp [h0]
    · intro sparse t hsave
      unfold saveModel at hsave
      split at hsave
      · cases hsave
      · cases hsave
        rfl

/-- Witness for C10 at a WAL holding one valid record: recovery yields
the one-entry map with `size_bytes = 0`. -/
theorem recoveredSizeBytesZero_witness :
    memTableOpen 0 (encodeLogItem (LogItem.make [1] [2])) =
      .ok (⟨0, [([1], [2])], 0⟩ : MemTableM) ∧
    ((⟨0, [([1], [2])], 0⟩ : MemTableM).size_bytes = 0 ∧
      (∀ maxEntries maxSizeBytes : Nat, 0 < maxSizeBytes →
        memIsFull ⟨0, [([1], [2])], 0⟩ maxEntries maxSizeBytes =
          decide (maxEntries ≤
            (⟨0, [([1], [2])], 0⟩ : MemTableM).entries.length)) ∧
      (∀ sparse t, saveModel ⟨0, [([1], [2])], 0⟩ sparse = some t →
        t.metadata.total_size = 0)) :=
  ⟨by decide,
    recoveredSizeBytesZero 0 (encodeLogItem (LogItem.make [1] [2])) _
      (by decide)⟩

/-! ### WAL iteration trichotomy -/

/-- `items` is the sequence of records successively decoded from `bs`
(each one valid and non-sentinel), leaving the suffix `rest`. -/
inductive WalReplay : List Nat → List LogItem → List Nat → Prop where
  | nil (bs : List Nat) : WalReplay bs [] bs
  | cons {bs rest fin : List Nat} {it : LogItem} {items : List LogItem} :
      decodeLogItem bs = some (it, rest) → it.isEmpty = false →
      it.check = true → WalReplay rest items fin →
      WalReplay bs (it :: items) fin

theorem walTrichotomyAux :
    ∀ (n : Nat) (bs : List Nat), bs.length ≤ n →
      ∃ items rest, WalReplay bs items rest ∧
        ((decodeLogItem rest = none ∧ walRun bs = .ok items) ∨
         (∃ it r2, decodeLogItem rest = some (it, r2) ∧ it.isEmpty = true ∧
           walRun bs = .ok items) ∨
         (∃ it r2, decodeLogItem rest = some (it, r2) ∧ it.isEmpty = false ∧
           it.check = false ∧ walRun bs = .error () ∧
           ∀ id, memTableOpen id bs = .error ())) := by
  intro n
  induction n using Nat.strong_induction_on with
  | _ n ih =>
    intro bs hlen
    have hrw : walRun bs =
        match walNext bs with
        | none => .ok []
        | some (.error e) => .error e
        | some (.ok (it, rest)) =>
          (walRunF bs.length rest).map (fun items => it :: items) := by
      unfold walRun
      rw [walRunF]
    cases hdec : decodeLogItem bs with
    | none =>
      have hnext : walNext bs = none := by
        unfold walNext
        rw [hdec]
      refine ⟨[], bs, WalReplay.nil bs, Or.inl ⟨hdec, ?_⟩⟩
      rw [hrw, hnext]
    | some pr =>
      obtain ⟨it, r⟩ := pr
      cases hemp : it.isEmpty with
      | true =>
        have hnext : walNext bs = none := by
          unfold walNext
          rw [hdec]
          simp [hemp]
        refine ⟨[], bs, WalReplay.nil bs, Or.inr (Or.inl ⟨it, r, hdec, hemp, ?_⟩)⟩
        rw [hrw, hnext]
      | false =>
        cases hchk : it.check with
        | false =>
          have hnext : walNext bs = some (.error ()) := by
            unfold walNext
            rw [hdec]
            simp [hemp, hchk]
          have hwr : walRun bs = .error () := by
            rw [hrw, hnext]
          refine ⟨[], bs, WalReplay.nil bs,
            Or.inr (Or.inr ⟨it, r, hdec, hemp, hchk, hwr, ?_⟩)⟩
          intro id
          unfold memTableOpen
          rw [hwr]
          rfl
        | true =>
          have hnext : walNext bs = some (.ok (it, r)) := by
            unfold walNext
            rw [hdec]
            simp [hemp, hchk]
          have hrlen : r.length < bs.length := decodeLogItem_length hdec
          have hfuel : walRunF bs.length r = walRun r := walRunF_fuel hrlen
          have hwr : walRun bs = (walRun r).map (fun items => it :: items) := by
            rw [hrw, hnext]
            dsimp only
            rw [hfuel]
          obtain ⟨items, rest, hwp, hcase⟩ :=
            ih r.length (by omega) r (Nat.le_refl _)
          refine ⟨it :: items, rest, WalReplay.cons hdec hemp hchk hwp, ?_⟩
          rcases hcase with ⟨hd, hok⟩ | ⟨it2, r2, hd2, he2, hok⟩ |
            ⟨it2, r2, hd2, he2, hc2, herr, _⟩
          · exact Or.inl ⟨hd, by rw [hwr, hok]; rfl⟩
          · exact Or.inr (Or.inl ⟨it2, r2, hd2, he2, by rw [hwr, hok]; rfl⟩)
          · have hwr2 : walRun bs = .error () := by
              rw [hwr, herr]
              rfl
            refine Or.inr (Or.inr ⟨it2, r2, hd2, he2, hc2, hwr2, ?_⟩)
            intro id
            unfold memTableOpen
            rw [hwr2]
            rfl

/-- C6: for every byte sequence underlying a WAL file, iteration ends in
exactly one of three ways after replaying a valid non-sentinel record
sequence: a bincode decode failure on the remaining suffix ends the
stream with no error (torn tail); a decoded all-zero sentinel item ends
the stream with no error; a decoded item whose recomputed CRC32-C over
key then value disagrees with the stored checksum yields the
`CorruptedData` error, which `MemTable::open` propagates, aborting
recovery. -/
theorem walIterationTrichotomy (bs : List Nat) :
    ∃ items rest, WalReplay bs items rest ∧
      ((decodeLogItem rest = none ∧ walRun bs = .ok items) ∨
       (∃ it r2, decodeLogItem rest = some (it, r2) ∧ it.isEmpty = true ∧
         walRun bs = .ok items) ∨
       (∃ it r2, decodeLogItem rest = some (it, r2) ∧ it.isEmpty = false ∧
         it.check = false ∧ walRun bs = .error () ∧
         ∀ id, memTableOpen id bs = .error ())) :=
  walTrichotomyAux bs.length bs (Nat.le_refl _)

/-! ### Sparse index characterization -/

/-- Specification-side: each record key paired with its start offset in
the serialized data region, starting at `off`. -/
def recordOffsetsFrom (off : Nat) : List (Key × Value) → List (Key × Nat)
  | [] => []
  | (k, v) :: tl => (k, off) :: recordOffsetsFrom (off + (encodeKV k v).length) tl

/-- Specification-side: record start offsets of a data region. -/
def recordOffsets (entries : List (Key × Value)) : List (Key × Nat) :=
  recordOffsetsFrom 0 entries

theorem saveStep_foldl_spec (sparse : Nat) :
    ∀ (entries : List (Key × Value)) (acc : SaveAcc),
      (entries.foldl (saveStep sparse) acc).file =
        acc.file ++ (entries.map (fun p => encodeKV p.1 p.2)).flatten ∧
      (entries.foldl (saveStep sparse) acc).size =
        acc.size + ((entries.map (fun p => encodeKV p.1 p.2)).flatten).length ∧
      (entries.foldl (saveStep sparse) acc).index =
        acc.index ++ (recordOffsetsFrom acc.size entries).filter
          (fun p => p.2 == 0 || p.2 % sparse == 0) ∧
      (entries.foldl (saveStep sparse) acc).lastWritten =
        (match entries.getLast? with
         | some e => (encodeKV e.1 e.2).length
         | none => acc.lastWritten) := by
  intro entries
  induction entries with
  | nil =>
    intro acc
    simp [recordOffsetsFrom]
  | cons e tl ih =>
    intro acc
    obtain ⟨k, v⟩ := e
    simp only [List.foldl_cons]
    obtain ⟨hfile, hsize, hindex, hlast⟩ := ih (saveStep sparse acc (k, v))
    refine ⟨?_, ?_, ?_, ?_⟩
    · rw [hfile]
      simp only [saveStep, List.map_cons, List.flatten_cons]
      simp [List.append_assoc]
    · rw [hsize]
      simp only [saveStep, List.map_cons, List.flatten_cons, List.length_append]
      omega
    · rw [hindex]
      simp only [saveStep, recordOffsetsFrom, List.filter_cons]
      by_cases hc : (acc.size == 0 || acc.size % sparse == 0) = true
      · simp [hc, List.append_assoc]
      · simp [hc]
    · rw [hlast]
      simp only [saveStep]
      cases tl with
      | nil => rfl
      | cons e2 tl2 =>
        rw [List.getLast?_cons_cons]
        cases hgl : (e2 :: tl2).getLast? with
        | none => simp at hgl
        | some e3 => rfl

/-- C7 (amended): the sparse index built by `MemTable::save` holds, in
record order, exactly one boundary entry for each record whose start
offset in the serialized data region is 0 or an exact multiple of
`sparse_index_range_size`, plus a terminator entry (last key, data
length); a window of the data region containing no such record start
holds no boundary. -/
theorem sparseIndexBoundaries (mt : MemTableM) (sparse : Nat)
    (h : mt.entries ≠ []) :
    ∃ t lastE, saveModel mt sparse = some t ∧
      mt.entries.getLast? = some lastE ∧
      t.file = (mt.entries.map (fun p => encodeKV p.1 p.2)).flatten ∧
      t.index = (recordOffsets mt.entries).filter
        (fun p => p.2 == 0 || p.2 % sparse == 0) ++
        [(lastE.1, t.file.length)] := by
  cases hent : mt.entries with
  | nil => exact absurd hent h
  | cons e0 etl =>
    obtain ⟨hfile, hsize, hindex, _⟩ :=
      saveStep_foldl_spec sparse (e0 :: etl) ⟨[], [], 0, 0⟩
    have hsave : saveModel mt sparse = some
        { metadata :=
            ⟨mt.id, (e0.1, 0),
              (((e0 :: etl).getLast (List.cons_ne_nil e0 etl)).1,
                ((e0 :: etl).foldl (saveStep sparse) ⟨[], [], 0, 0⟩).size -
                  ((e0 :: etl).foldl (saveStep sparse) ⟨[], [], 0, 0⟩).lastWritten),
              mt.size_bytes, (e0 :: etl).length⟩
          file := ((e0 :: etl).foldl (saveStep sparse) ⟨[], [], 0, 0⟩).file
          index := ((e0 :: etl).foldl (saveStep sparse) ⟨[], [], 0, 0⟩).index ++
            [(((e0 :: etl).getLast (List.cons_ne_nil e0 etl)).1,
              ((e0 :: etl).foldl (saveStep sparse) ⟨[], [], 0, 0⟩).size)]
          bloom := fun k => ((e0 :: etl).map Prod.fst).contains k } := by
      unfold saveModel
      rw [hent]
    refine ⟨_, (e0 :: etl).getLast (List.cons_ne_nil e0 etl), hsave, ?_, ?_, ?_⟩
    · exact List.getLast?_eq_getLast _ _
    · show ((e0 :: etl).foldl (saveStep sparse) ⟨[], [], 0, 0⟩).file = _
      rw [hfile]
      simp
    · show ((e0 :: etl).foldl (saveStep sparse) ⟨[], [], 0, 0⟩).index ++ _ = _
      rw [hindex]
      have hlen : ((e0 :: etl).foldl (saveStep sparse) ⟨[], [], 0, 0⟩).size =
          (((e0 :: etl).foldl (saveStep sparse) ⟨[], [], 0, 0⟩).file).length := by
        rw [hfile, hsize]
        simp
      rw [hlen]
      unfold recordOffsets
      simp

/-- Counterexample to C7 as stated: five 3-byte records with
`sparse_index_range_size = 4` produce boundaries only at offsets 0 and
12 (plus the terminator at 15); the aligned window [4, 8) of the data
region contains no boundary. -/
theorem sparseIndexBoundaries_counterexample :
    (saveModel ⟨1, [([1], []), ([2], []), ([3], []), ([4], []), ([5], [])], 15⟩
        4).map SSTableModel.index =
      some [([1], 0), ([5], 12), ([5], 15)] ∧
    (saveModel ⟨1, [([1], []), ([2], []), ([3], []), ([4], []), ([5], [])], 15⟩
        4).map (fun t => t.file.length) = some 15 ∧
    ¬ ∃ p ∈ ((saveModel
        ⟨1, [([1], []), ([2], []), ([3], []), ([4], []), ([5], [])], 15⟩
        4).map SSTableModel.index).getD [], 4 ≤ p.2 ∧ p.2 < 8 :=
  ⟨by decide, by decide, by decide⟩

/-- Witness for C7 (amended) at a one-record memtable. -/
theorem sparseIndexBoundaries_witness :
    ((⟨1, [([1], [7])], 2⟩ : MemTableM).entries ≠ []) ∧
    (∃ t lastE, saveModel ⟨1, [([1], [7])], 2⟩ 4 = some t ∧
      (⟨1, [([1], [7])], 2⟩ : MemTableM).entries.getLast? = some lastE ∧
      t.file = ((⟨1, [([1], [7])], 2⟩ : MemTableM).entries.map
        (fun p => encodeKV p.1 p.2)).flatten ∧
      t.index = (recordOffsets (⟨1, [([1], [7])], 2⟩ : MemTableM).entries).filter
        (fun p => p.2 == 0 || p.2 % 4 == 0) ++
        [(lastE.1, t.file.length)]) :=
  ⟨by decide, sparseIndexBoundaries ⟨1, [([1], [7])], 2⟩ 4 (by decide)⟩

end LsmDb
